import Mathlib

/-!
Verification development for the Sudoku constraint-propagation solver in `a5.py`.

The board is a 9x9 grid whose cells are either an assigned number (`Cell.fixed`)
or the Python list of still-possible numbers (`Cell.cands`).  The grid is
embedded as a total function from (row, column) coordinates to cells; only the
coordinates `0..8` are ever read or written by the modelled operations, which
matches the 9x9 nested lists of the source.  Machine integers of the source are
small naturals, so plain `Nat` is used.
-/

set_option maxRecDepth 10000

namespace A5

/-- `Board.size` is set to 9 in `__init__` and never mutated, so it is a constant. -/
def size : Nat := 9

/-- A cell of the board: either the assigned number, or the Python list of
remaining candidate numbers (`a5.py`, `Board.rows` documentation). -/
inductive Cell where
  | fixed (n : Nat)
  | cands (l : List Nat)
deriving DecidableEq

/-- Embedding of `remove_if_exists` (`a5.py` lines 8-16): on a Python list it
removes the first occurrence of `elem` if present (which is exactly
`List.erase`), and on a non-list (an assigned number) it does nothing. -/
def remove_if_exists (cell : Cell) (elem : Nat) : Cell :=
  match cell with
  | .fixed n => .fixed n
  | .cands l => .cands (l.erase elem)

/-- The 9x9 grid, as a function from row and column index to the cell. -/
def Grid : Type := Nat → Nat → Cell

/-- Writing one cell of the grid (the assignment `self.rows[row][column] = ...`). -/
def setCell (g : Grid) (r c : Nat) (x : Cell) : Grid :=
  fun i j => if i = r ∧ j = c then x else g i j

/-- A board state: the grid together with the `num_nums_placed` counter. -/
structure Board where
  rows : Grid
  num_nums_placed : Nat

/-- The row/column bands used by `subgrid_coordinates` (`subgrids` in the source). -/
def subgrids : List (List Nat) := [[0, 1, 2], [3, 4, 5], [6, 7, 8]]

/-- Embedding of `Board.subgrid_coordinates` (`a5.py` lines 82-99): the Cartesian
product `[(r, c) for c in subgrids[col // 3] for r in subgrids[row // 3]]`,
with the outer loop over `c` and the inner loop over `r`. -/
def subgrid_coordinates (row col : Nat) : List (Nat × Nat) :=
  (subgrids.getD (col / 3) []).flatMap
    (fun c => (subgrids.getD (row / 3) []).map (fun r => (r, c)))

/-- The coordinates hit by the two elimination loops of `Board.update`, in
execution order: iteration `i` of the first loop removes from `rows[row][i]`
and then from `rows[i][column]`; afterwards the second loop walks the subgrid. -/
def updateTargets (row column : Nat) : List (Nat × Nat) :=
  ((List.range size).flatMap (fun i => [(row, i), (i, column)]))
    ++ subgrid_coordinates row column

/-- Embedding of `Board.update` (`a5.py` lines 149-169): store the assignment at
`(row, column)`, increment `num_nums_placed`, then run `remove_if_exists` on
every target cell of the two elimination loops, in loop order. -/
def Board.update (b : Board) (row column assignment : Nat) : Board :=
  let g0 := setCell b.rows row column (.fixed assignment)
  { rows := (updateTargets row column).foldl
      (fun g p => setCell g p.1 p.2 (remove_if_exists (g p.1 p.2) assignment)) g0,
    num_nums_placed := b.num_nums_placed + 1 }

/-- Embedding of `Board.__init__` (`a5.py` lines 42-55): every cell holds the
list `[1, ..., 9]` (`list(range(1, 10))`) and no numbers are placed. -/
def Board.init : Board :=
  { rows := fun _ _ => .cands (List.range' 1 9), num_nums_placed := 0 }

/-- All 81 coordinates in row-major order: the scan order of the nested
`for i in range(self.size): for j in range(self.size)` loops. -/
def allCoords : List (Nat × Nat) :=
  (List.range size).flatMap (fun i => (List.range size).map (fun j => (i, j)))

/-- One iteration of the scan in `find_most_constrained_cell`: the state is
`(mini, row, col)` and a candidate-list cell strictly shorter than `mini`
replaces the state. -/
def mccStep (g : Grid) (st : Nat × Nat × Nat) (p : Nat × Nat) : Nat × Nat × Nat :=
  match g p.1 p.2 with
  | .cands l => if l.length < st.1 then (l.length, p.1, p.2) else st
  | .fixed _ => st

/-- Embedding of `Board.find_most_constrained_cell` (`a5.py` lines 101-121):
scan all cells in row-major order starting from `mini = self.size`, `row = 0`,
`col = 0`, and return the final `(row, col)`. -/
def Board.find_most_constrained_cell (b : Board) : Nat × Nat :=
  let st := allCoords.foldl (mccStep b.rows) (size, 0, 0)
  (st.2.1, st.2.2)

/-- Python truthiness of a cell, as used by `if not cell:` in `failure_test`:
an int is falsy exactly when it is 0, a list exactly when it is empty. -/
def cellFalsy (c : Cell) : Bool :=
  match c with
  | .fixed n => n == 0
  | .cands l => l.isEmpty

/-- Embedding of `Board.failure_test` (`a5.py` lines 125-137): true iff some
cell of the grid is falsy (`if not cell: return True`). -/
def Board.failure_test (b : Board) : Bool :=
  allCoords.any (fun p => cellFalsy (b.rows p.1 p.2))

/-- Embedding of `Board.goal_test` (`a5.py` lines 140-147):
`num_nums_placed == size * size`. -/
def Board.goal_test (b : Board) : Bool :=
  b.num_nums_placed == size * size

/-- Whether a cell holds an assigned number. -/
def isFixedCell : Cell → Bool
  | .fixed _ => true
  | .cands _ => false

/-- Whether a cell still holds a candidate list. -/
def isCandsCell : Cell → Bool
  | .fixed _ => false
  | .cands _ => true

/-- The number of assigned (non-list) cells of the board. -/
def numFixed (b : Board) : Nat :=
  allCoords.countP (fun p => isFixedCell (b.rows p.1 p.2))

/-- The number of cells still holding a candidate list. -/
def candsCount (b : Board) : Nat :=
  allCoords.countP (fun p => isCandsCell (b.rows p.1 p.2))

/-- Result of one `DFS` call: `ret r` models an ordinary `return` (with
`r = none` for the final `return None`, the failure signal), and `err` models
the `TypeError` Python raises when `for pos in possibilities` iterates a
non-list (only reachable when `find_most_constrained_cell` lands on an
assigned cell). -/
inductive DfsResult (β : Type) where
  | ret (r : Option β)
  | err
deriving DecidableEq

/-- Fuel-indexed embedding of the `while not stack.is_empty()` loop of `DFS`
(`a5.py` lines 171-218).  `none` means the fuel ran out before the loop
finished; `some r` means the loop finished with result `r`.

Modelled from the spec: the frontier container `Stack` comes from
`stack_and_queue`, which is not part of the sources; per the spec it is a LIFO
supporting push, pop-most-recent and empty-check.  It is modelled as a list
whose head is the most recently pushed board, so pushing is `cons` and the
`for pos in possibilities` loop is a left fold of pushes.  A branch copies the
popped board (`copy.deepcopy`), assigns with `update` and pushes the copy; on
immutable values the deep copy is the value itself. -/
def DFSRun : Nat → List Board → Option (DfsResult Board)
  | 0, _ => none
  | _ + 1, [] => some (.ret none)
  | n + 1, curr :: rest =>
    if curr.goal_test then some (.ret (some curr))
    else if !curr.failure_test then
      let mcc := curr.find_most_constrained_cell
      match curr.rows mcc.1 mcc.2 with
      | .cands possibilities =>
          DFSRun n (possibilities.foldl
            (fun s pos => curr.update mcc.1 mcc.2 pos :: s) rest)
      | .fixed _ => some .err
    else DFSRun n rest

/-- Embedding of the entry point `DFS(state)`: the loop starts from the stack
`Stack([state])` holding just the caller-supplied board. -/
def DFS (fuel : Nat) (state : Board) : Option (DfsResult Board) :=
  DFSRun fuel [state]

/-! ## Heap model for deep-copy isolation

In Python the candidate lists are mutable heap objects: `remove_if_exists`
mutates the list in place, and `copy.deepcopy` allocates fresh lists.  To
state the isolation claims (which are about object identity) the same
operations are re-run over an explicit store mapping addresses to list
contents.  A cell either holds the assigned int (ints are immutable) or a
reference to a heap list; a board value carries its own `num_nums_placed`
attribute, which is per object and never shared between boards. -/

/-- A cell in the heap model: an assigned int, or the address of the mutable
candidate list. -/
inductive HCell where
  | fixed (n : Nat)
  | ref (a : Nat)
deriving DecidableEq

/-- The heap of candidate-list objects, with a bump allocator. -/
structure Store where
  mem : Nat → List Nat
  next : Nat

/-- A board object in the heap model. -/
structure BoardH where
  rows : Nat → Nat → HCell
  num_nums_placed : Nat

/-- In-place mutation of one heap list. -/
def writeMem (σ : Store) (a : Nat) (l : List Nat) : Store :=
  { σ with mem := fun x => if x = a then l else σ.mem x }

/-- `remove_if_exists` in the heap model: `lst.remove(elem)` mutates the
referenced list in place; a non-list is untouched. -/
def remove_if_existsH (σ : Store) (cell : HCell) (elem : Nat) : Store :=
  match cell with
  | .fixed _ => σ
  | .ref a => writeMem σ a ((σ.mem a).erase elem)

/-- Rebinding one slot of the nested `rows` lists. -/
def setCellH (g : Nat → Nat → HCell) (r c : Nat) (x : HCell) :
    Nat → Nat → HCell :=
  fun i j => if i = r ∧ j = c then x else g i j

/-- `Board.update` in the heap model: rebind the slot to the int, bump the
counter, then run `remove_if_exists` over the elimination targets, reading
the references from the already-rebound grid exactly as the Python loops
read `self.rows` after the slot assignment. -/
def BoardH.update (b : BoardH) (σ : Store) (row column assignment : Nat) :
    BoardH × Store :=
  let b2 : BoardH :=
    ⟨setCellH b.rows row column (.fixed assignment), b.num_nums_placed + 1⟩
  (b2, (updateTargets row column).foldl
    (fun σ p => remove_if_existsH σ (b2.rows p.1 p.2) assignment) σ)

/-- `copy.deepcopy` in the heap model: allocate one fresh block of 81
addresses (cell `(i, j)` gets address `next + 9 * i + j`) and copy every
referenced list into the fresh address of its cell; ints are copied by
value and the counter attribute belongs to the new object. -/
def deepcopyH (b : BoardH) (σ : Store) : BoardH × Store :=
  ({ rows := fun i j => match b.rows i j with
      | .fixed n => .fixed n
      | .ref _ => .ref (σ.next + size * i + j),
     num_nums_placed := b.num_nums_placed },
   { mem := fun x =>
      if σ.next ≤ x ∧ x < σ.next + size * size then
        match b.rows ((x - σ.next) / size) ((x - σ.next) % size) with
        | .ref a => σ.mem a
        | .fixed _ => σ.mem x
      else σ.mem x,
     next := σ.next + size * size })

/-- Reading one cell through the store. -/
def readCellH (b : BoardH) (σ : Store) (i j : Nat) : Cell :=
  match b.rows i j with
  | .fixed n => .fixed n
  | .ref a => .cands (σ.mem a)

/-- The observable state of a board object: its 81 cell contents read through
the store, and its counter attribute. -/
def readBoardH (b : BoardH) (σ : Store) : List (List Cell) × Nat :=
  ((List.range size).map (fun i =>
    (List.range size).map (fun j => readCellH b σ i j)), b.num_nums_placed)

/-- All candidate-list references of the board point at or above `low`. -/
def AddrsAbove (b : BoardH) (low : Nat) : Prop :=
  ∀ i j a, i < size → j < size → b.rows i j = HCell.ref a → low ≤ a

/-- All candidate-list references of the board are allocated in the store. -/
def WFBoardH (b : BoardH) (σ : Store) : Prop :=
  ∀ i j a, i < size → j < size → b.rows i j = HCell.ref a → a < σ.next

/-- `goal_test` in the heap model. -/
def BoardH.goal_test (b : BoardH) : Bool :=
  b.num_nums_placed == size * size

/-- Python truthiness of a heap cell. -/
def cellFalsyH (σ : Store) (c : HCell) : Bool :=
  match c with
  | .fixed n => n == 0
  | .ref a => (σ.mem a).isEmpty

/-- `failure_test` in the heap model. -/
def BoardH.failure_test (b : BoardH) (σ : Store) : Bool :=
  allCoords.any (fun p => cellFalsyH σ (b.rows p.1 p.2))

/-- One scan step of `find_most_constrained_cell` in the heap model. -/
def mccStepH (b : BoardH) (σ : Store) (st : Nat × Nat × Nat) (p : Nat × Nat) :
    Nat × Nat × Nat :=
  match b.rows p.1 p.2 with
  | .ref a => if (σ.mem a).length < st.1 then ((σ.mem a).length, p.1, p.2) else st
  | .fixed _ => st

/-- `find_most_constrained_cell` in the heap model. -/
def BoardH.find_most_constrained_cell (b : BoardH) (σ : Store) : Nat × Nat :=
  let st := allCoords.foldl (mccStepH b σ) (size, 0, 0)
  (st.2.1, st.2.2)

/-- The `for pos in possibilities` loop of `DFS` in the heap model: deep-copy
the popped board, assign the value on the copy (mutating only the fresh
lists) and push the copy.  The iterated list `ps` is the snapshot of the
popped board's own list, which no iteration writes to. -/
def dfsPushH (curr : BoardH) (row col : Nat) (ps : List Nat)
    (acc : List BoardH × Store) : List BoardH × Store :=
  ps.foldl (fun acc pos =>
    let cp := deepcopyH curr acc.2
    let cu := cp.1.update cp.2 row col pos
    (cu.1 :: acc.1, cu.2)) acc

/-- The DFS loop in the heap model, threading the store. -/
def DFSRunH : Nat → List BoardH → Store → Option (DfsResult BoardH × Store)
  | 0, _, _ => none
  | _ + 1, [], σ => some (.ret none, σ)
  | n + 1, curr :: rest, σ =>
    if curr.goal_test then some (.ret (some curr), σ)
    else if !curr.failure_test σ then
      let mcc := curr.find_most_constrained_cell σ
      match curr.rows mcc.1 mcc.2 with
      | .ref a =>
          let step := dfsPushH curr mcc.1 mcc.2 (σ.mem a) (rest, σ)
          DFSRunH n step.1 step.2
      | .fixed _ => some (.err, σ)
    else DFSRunH n rest σ

/-- A sequence of `update` calls applied to a board object, threading the
store. -/
def applyUpdatesH (ops : List (Nat × Nat × Nat)) (bσ : BoardH × Store) :
    BoardH × Store :=
  ops.foldl (fun bσ op => bσ.1.update bσ.2 op.1 op.2.1 op.2.2) bσ

/-! ## Derived predicates and relations used by the claims -/

/-- Strict row-major order on coordinates: the order in which the nested scan
loops visit the cells. -/
def rmLT (p q : Nat × Nat) : Prop :=
  p.1 < q.1 ∨ (p.1 = q.1 ∧ p.2 < q.2)

/-- Reflexive row-major order on coordinates. -/
def rmLE (p q : Nat × Nat) : Prop :=
  p.1 < q.1 ∨ (p.1 = q.1 ∧ p.2 ≤ q.2)

instance (p q : Nat × Nat) : Decidable (rmLT p q) :=
  inferInstanceAs (Decidable (p.1 < q.1 ∨ (p.1 = q.1 ∧ p.2 < q.2)))

instance (p q : Nat × Nat) : Decidable (rmLE p q) :=
  inferInstanceAs (Decidable (p.1 < q.1 ∨ (p.1 = q.1 ∧ p.2 ≤ q.2)))

/-- The final state of the scan of `find_most_constrained_cell`. -/
def mccState (b : Board) : Nat × Nat × Nat :=
  allCoords.foldl (mccStep b.rows) (size, 0, 0)

/-! ### Well-formedness of boards (the data model of the specification) -/

/-- Well-formedness of a single cell per the data model: a `Fixed` value lies
in `1..9`; a candidate list is duplicate-free with members in `1..9`. -/
def CellWF : Cell → Prop
  | .fixed n => 1 ≤ n ∧ n ≤ size
  | .cands l => l.Nodup ∧ ∀ x ∈ l, 1 ≤ x ∧ x ≤ size

/-- Every in-range cell of the board is well-formed. -/
def BoardWF (b : Board) : Prop :=
  ∀ i j, i < size → j < size → CellWF (b.rows i j)

/-- The elimination invariant of the data model: no candidate list of a cell
sharing a row, column or subgrid with an assigned cell contains its value. -/
def ElimInv (b : Board) : Prop :=
  ∀ r c i j n l, r < size → c < size → i < size → j < size →
    b.rows r c = Cell.fixed n →
    (i = r ∨ j = c ∨ (i, j) ∈ subgrid_coordinates r c) →
    ¬(i = r ∧ j = c) →
    b.rows i j = Cell.cands l → n ∉ l

/-! ### The frontier transition relation (specification side of C7) -/

/-- One turn of the loop on a frontier whose popped board does not pass the
goal test: either the board fails and is discarded, or its children (one per
value of the most-constrained candidate list) are pushed. -/
def NextStack (s t : List Board) : Prop :=
  ∃ curr rest, s = curr :: rest ∧ curr.goal_test = false ∧
    ((curr.failure_test = true ∧ t = rest) ∨
     (curr.failure_test = false ∧
       ∃ l, curr.rows curr.find_most_constrained_cell.1
              curr.find_most_constrained_cell.2 = Cell.cands l ∧
            t = l.foldl (fun s2 pos =>
              curr.update curr.find_most_constrained_cell.1
                curr.find_most_constrained_cell.2 pos :: s2) rest))

/-! ### Sorted candidate lists -/

/-- Every candidate list of the board is strictly ascending (hence without
duplicates).  This holds for every board the program ever builds: fresh lists
are `[1, ..., 9]` and elimination only erases elements. -/
def BoardSorted (b : Board) : Prop :=
  ∀ i j l, i < size → j < size → b.rows i j = Cell.cands l →
    l.Pairwise (fun x y => x < y)

/-! ### The invariant carried by every frontier board of the doomed search -/

/-- State invariant of the DFS frontier after seeding two cells of row `r`
(columns `c1` and `c2`) with the same value `v`: the data-model invariants,
both seeds still assigned with value `v`, the count invariant, all rows other
than the seed pair duplicate-free, and all columns duplicate-free. -/
structure SeedInv (r c1 c2 v : Nat) (b : Board) : Prop where
  wf : BoardWF b
  elimI : ElimInv b
  seed1 : b.rows r c1 = Cell.fixed v
  seed2 : b.rows r c2 = Cell.fixed v
  count : b.num_nums_placed = numFixed b
  rowsD : ∀ i j j2 n n2, i < size → j < size → j2 < size → j ≠ j2 →
    b.rows i j = Cell.fixed n → b.rows i j2 = Cell.fixed n2 →
    (i = r ∧ ((j = c1 ∧ j2 = c2) ∨ (j = c2 ∧ j2 = c1))) ∨ n ≠ n2
  colsD : ∀ i i2 j n n2, i < size → i2 < size → j < size → i ≠ i2 →
    b.rows i j = Cell.fixed n → b.rows i2 j = Cell.fixed n2 → n ≠ n2

/-- The assigned value of a cell (0 for candidate lists; only used on boards
whose cells are all assigned). -/
def cellVal : Cell → Nat
  | .fixed n => n
  | .cands _ => 0

/-! ### A decreasing measure for the doomed search -/

/-- Measure of a frontier: each board weighs `10 ^ (candidate cells + 1)`.
Expanding a board replaces weight `10 ^ (k + 1)` by at most `9 * 10 ^ k`. -/
def stackMeasure (s : List Board) : Nat :=
  (s.map (fun b => 10 ^ (candsCount b + 1))).sum

/-! ### Reachable boards -/

/-- Boards built the way the program builds them: a fresh `Board()` followed by
in-range `update` calls, each assigning a cell that still holds a candidate
list (the only kind of `update` the driver and the search ever perform). -/
inductive Reachable : Board → Prop where
  | init : Reachable Board.init
  | update (b : Board) (r c v : Nat) (hb : Reachable b) (hr : r < size)
      (hc : c < size) (l : List Nat) (hcell : b.rows r c = Cell.cands l) :
      Reachable (b.update r c v)

/-! ### Pointwise characterisation of `Board.update` -/

lemma setCell_same (g : Grid) (r c : Nat) (x : Cell) : setCell g r c x r c = x := by
  simp [setCell]

lemma setCell_other (g : Grid) (r c i j : Nat) (x : Cell) (h : ¬(i = r ∧ j = c)) :
    setCell g r c x i j = g i j := by
  simp [setCell, h]

/-- The elimination fold of `Board.update` acts on each coordinate by applying
`remove_if_exists` once per occurrence of that coordinate in the target list. -/
lemma elimFold_point (v : Nat) :
    ∀ (ps : List (Nat × Nat)) (g : Grid) (i j : Nat),
      (ps.foldl (fun g p => setCell g p.1 p.2 (remove_if_exists (g p.1 p.2) v)) g) i j
        = (fun cl => remove_if_exists cl v)^[ps.count (i, j)] (g i j) := by
  intro ps
  induction ps with
  | nil => intro g i j; simp
  | cons q ps ih =>
      intro g i j
      obtain ⟨q1, q2⟩ := q
      by_cases hq : q1 = i ∧ q2 = j
      · obtain ⟨rfl, rfl⟩ := hq
        simp only [List.foldl_cons, List.count_cons_self]
        rw [ih, setCell_same]
        exact (Function.iterate_succ_apply (fun cl => remove_if_exists cl v) _ _).symm
      · have hne : ¬(i = q1 ∧ j = q2) := fun h => hq ⟨h.1.symm, h.2.symm⟩
        have hcc : ((q1, q2) == (i, j)) = false := by
          simp only [beq_eq_false_iff_ne, ne_eq, Prod.mk.injEq]
          exact hq
        simp only [List.foldl_cons, List.count_cons, hcc]
        rw [ih, setCell_other _ _ _ _ _ _ hne]
        simp

lemma update_rows_point (b : Board) (row column assignment i j : Nat) :
    (b.update row column assignment).rows i j
      = (fun cl => remove_if_exists cl assignment)^[(updateTargets row column).count (i, j)]
          (setCell b.rows row column (.fixed assignment) i j) := by
  simp only [Board.update]
  exact elimFold_point assignment (updateTargets row column) _ i j

lemma iterate_rie_fixed (v n k : Nat) :
    (fun cl => remove_if_exists cl v)^[k] (.fixed n) = .fixed n := by
  induction k with
  | zero => rfl
  | succ k ih => rw [Function.iterate_succ_apply]; exact ih

lemma iterate_rie_cands (v : Nat) :
    ∀ (k : Nat) (l : List Nat), ∃ l2,
      (fun cl => remove_if_exists cl v)^[k] (.cands l) = .cands l2 ∧ l2.Sublist l := by
  intro k
  induction k with
  | zero => intro l; exact ⟨l, rfl, List.Sublist.refl l⟩
  | succ k ih =>
      intro l
      rw [Function.iterate_succ_apply]
      obtain ⟨l2, h1, h2⟩ := ih (l.erase v)
      exact ⟨l2, h1, h2.trans (List.erase_sublist ..)⟩

lemma iterate_rie_of_not_mem (v : Nat) (k : Nat) (l : List Nat) (h : v ∉ l) :
    (fun cl => remove_if_exists cl v)^[k] (.cands l) = .cands l := by
  induction k with
  | zero => rfl
  | succ k ih =>
      rw [Function.iterate_succ_apply]
      have : remove_if_exists (.cands l) v = .cands l := by
        simp [remove_if_exists, List.erase_of_not_mem h]
      rw [this]; exact ih

lemma iterate_rie_not_mem (v k : Nat) (l l2 : List Nat) (hnd : l.Nodup)
    (h : (fun cl => remove_if_exists cl v)^[k + 1] (.cands l) = .cands l2) : v ∉ l2 := by
  rw [Function.iterate_succ_apply] at h
  have hstep : remove_if_exists (.cands l) v = .cands (l.erase v) := rfl
  rw [hstep] at h
  have hnm : v ∉ l.erase v := by
    intro hmem
    exact ((hnd.mem_erase_iff).1 hmem).1 rfl
  rw [iterate_rie_of_not_mem v k _ hnm] at h
  cases h
  exact hnm

lemma update_rows_self (b : Board) (row column assignment : Nat) :
    (b.update row column assignment).rows row column = .fixed assignment := by
  rw [update_rows_point, setCell_same, iterate_rie_fixed]

lemma update_rows_fixed_iff (b : Board) (row column assignment i j n : Nat)
    (h : ¬(i = row ∧ j = column)) :
    (b.update row column assignment).rows i j = .fixed n ↔ b.rows i j = .fixed n := by
  rw [update_rows_point, setCell_other _ _ _ _ _ _ h]
  cases hc : b.rows i j with
  | fixed m => rw [iterate_rie_fixed]
  | cands l =>
      obtain ⟨l2, h1, _⟩ := iterate_rie_cands assignment _ l
      rw [h1]
      constructor <;> intro hx <;> cases hx

lemma update_rows_cands (b : Board) (row column assignment i j : Nat) (l2 : List Nat)
    (h : ¬(i = row ∧ j = column))
    (hc : (b.update row column assignment).rows i j = .cands l2) :
    ∃ l, b.rows i j = .cands l ∧ l2.Sublist l := by
  rw [update_rows_point, setCell_other _ _ _ _ _ _ h] at hc
  cases hb : b.rows i j with
  | fixed m => rw [hb, iterate_rie_fixed] at hc; cases hc
  | cands l =>
      rw [hb] at hc
      obtain ⟨l3, h1, h2⟩ := iterate_rie_cands assignment _ l
      rw [h1] at hc
      cases hc
      exact ⟨l, rfl, h2⟩

lemma update_num (b : Board) (row column assignment : Nat) :
    (b.update row column assignment).num_nums_placed = b.num_nums_placed + 1 := rfl

/-! ### Membership of peers in the elimination targets -/

lemma mem_updateTargets_row (row column j : Nat) (hj : j < size) :
    (row, j) ∈ updateTargets row column := by
  apply List.mem_append_left
  simp only [List.mem_flatMap]
  exact ⟨j, by simpa [List.mem_range] using hj, by simp⟩

lemma mem_updateTargets_col (row column i : Nat) (hi : i < size) :
    (i, column) ∈ updateTargets row column := by
  apply List.mem_append_left
  simp only [List.mem_flatMap]
  exact ⟨i, by simpa [List.mem_range] using hi, by simp⟩

lemma mem_updateTargets_subgrid (row column : Nat) (p : Nat × Nat)
    (hp : p ∈ subgrid_coordinates row column) : p ∈ updateTargets row column :=
  List.mem_append_right _ hp

/-- Core elimination lemma: after `update`, the assigned value is absent from
every candidate list at a coordinate hit by the elimination loops, provided
that list held no duplicates before the update. -/
lemma update_eliminates (b : Board) (row column assignment i j : Nat)
    (hmem : (i, j) ∈ updateTargets row column)
    (hnd : ∀ l, b.rows i j = .cands l → l.Nodup)
    (l2 : List Nat) (h : (b.update row column assignment).rows i j = .cands l2) :
    assignment ∉ l2 := by
  have hpos : 0 < (updateTargets row column).count (i, j) :=
    List.count_pos_iff.mpr hmem
  obtain ⟨k, hk⟩ : ∃ k, (updateTargets row column).count (i, j) = k + 1 :=
    ⟨(updateTargets row column).count (i, j) - 1, by omega⟩
  rw [update_rows_point, hk] at h
  by_cases hij : i = row ∧ j = column
  · rw [hij.1, hij.2, setCell_same, iterate_rie_fixed] at h
    cases h
  · rw [setCell_other _ _ _ _ _ _ hij] at h
    cases hb : b.rows i j with
    | fixed m => rw [hb, iterate_rie_fixed] at h; cases h
    | cands l => exact iterate_rie_not_mem assignment k l l2 (hnd l hb) (hb ▸ h)

/-! ### Characterisation of the `find_most_constrained_cell` scan -/

lemma rmLT.le {p q : Nat × Nat} (h : rmLT p q) : rmLE p q := by
  rcases h with h | ⟨h1, h2⟩
  · exact Or.inl h
  · exact Or.inr ⟨h1, Nat.le_of_lt h2⟩

lemma rmLE.refl (p : Nat × Nat) : rmLE p p := Or.inr ⟨rfl, Nat.le_refl _⟩

lemma mem_allCoords (i j : Nat) : (i, j) ∈ allCoords ↔ i < size ∧ j < size := by
  simp [allCoords, List.mem_flatMap, List.mem_map, List.mem_range, eq_comm]

/-- Full invariant of the scan fold: starting from state `(m, r, c)` where any
current best `(r, c)` (meaningful only when `m < size`) lies strictly before
the remaining coordinates `L`, the fold computes the first minimum-length
candidate cell. -/
lemma mccFold_spec (g : Grid) :
    ∀ (L : List (Nat × Nat)) (m r c : Nat),
      m ≤ size →
      (∀ p ∈ L, p.1 < size ∧ p.2 < size) →
      List.Pairwise rmLT L →
      (∀ p ∈ L, rmLE (r, c) p) →
      (m < size → r < size ∧ c < size ∧ ∃ l, g r c = Cell.cands l ∧ l.length = m) →
      (m < size → ∀ p ∈ L, rmLT (r, c) p) →
      (L.foldl (mccStep g) (m, r, c)).1 ≤ m ∧
      (L.foldl (mccStep g) (m, r, c) = (m, r, c) ∨
        (L.foldl (mccStep g) (m, r, c)).1 < m) ∧
      (∀ p ∈ L, ∀ l, g p.1 p.2 = Cell.cands l →
        (L.foldl (mccStep g) (m, r, c)).1 ≤ l.length) ∧
      ((L.foldl (mccStep g) (m, r, c)).1 < size →
        (L.foldl (mccStep g) (m, r, c)).2.1 < size ∧
        (L.foldl (mccStep g) (m, r, c)).2.2 < size ∧
        ∃ l, g (L.foldl (mccStep g) (m, r, c)).2.1 (L.foldl (mccStep g) (m, r, c)).2.2
              = Cell.cands l ∧ l.length = (L.foldl (mccStep g) (m, r, c)).1) ∧
      (∀ p ∈ L, ∀ l, g p.1 p.2 = Cell.cands l →
        l.length = (L.foldl (mccStep g) (m, r, c)).1 →
        rmLE ((L.foldl (mccStep g) (m, r, c)).2.1, (L.foldl (mccStep g) (m, r, c)).2.2) p) := by
  intro L
  induction L with
  | nil =>
      intro m r c hm _ _ _ h1 _
      refine ⟨Nat.le_refl _, Or.inl rfl, by simp, ?_, by simp⟩
      intro hlt
      exact h1 hlt
  | cons q L ih =>
      intro m r c hm hbound hpw hle h1 h2
      have hbq := hbound q (List.mem_cons_self ..)
      have hpwq : ∀ p ∈ L, rmLT q p := (List.pairwise_cons.1 hpw).1
      have hpwL : List.Pairwise rmLT L := (List.pairwise_cons.1 hpw).2
      have hboundL : ∀ p ∈ L, p.1 < size ∧ p.2 < size :=
        fun p hp => hbound p (List.mem_cons_of_mem _ hp)
      simp only [List.foldl_cons]
      rcases hcell : g q.1 q.2 with n | l
      · -- the scanned cell is an assigned number: the state is unchanged
        have hstep : mccStep g (m, r, c) q = (m, r, c) := by
          simp [mccStep, hcell]
        rw [hstep]
        obtain ⟨c1, c2, c3, c4, c5⟩ := ih m r c hm hboundL hpwL
          (fun p hp => hle p (List.mem_cons_of_mem _ hp)) h1
          (fun hlt p hp => h2 hlt p (List.mem_cons_of_mem _ hp))
        refine ⟨c1, c2, ?_, c4, ?_⟩
        · intro p hp l hl
          rcases List.mem_cons.1 hp with rfl | hp
          · rw [hcell] at hl; cases hl
          · exact c3 p hp l hl
        · intro p hp l hl hlen
          rcases List.mem_cons.1 hp with rfl | hp
          · rw [hcell] at hl; cases hl
          · exact c5 p hp l hl hlen
      · by_cases hlen : l.length < m
        · -- the scanned cell is a strictly shorter candidate list: adopt it
          have hstep : mccStep g (m, r, c) q = (l.length, q.1, q.2) := by
            simp [mccStep, hcell, hlen]
          rw [hstep]
          have hmq : l.length ≤ size := Nat.le_of_lt (Nat.lt_of_lt_of_le hlen hm)
          obtain ⟨c1, c2, c3, c4, c5⟩ := ih l.length q.1 q.2 hmq hboundL hpwL
            (fun p hp => (hpwq p hp).le)
            (fun _ => ⟨hbq.1, hbq.2, l, by rw [← hcell], rfl⟩)
            (fun _ p hp => hpwq p hp)
          refine ⟨Nat.le_of_lt (Nat.lt_of_le_of_lt c1 hlen), ?_, ?_, c4, ?_⟩
          · right
            rcases c2 with heq | hlt
            · rw [heq]; exact hlen
            · exact Nat.lt_trans hlt hlen
          · intro p hp l2 hl2
            rcases List.mem_cons.1 hp with rfl | hp
            · rw [hcell] at hl2; cases hl2; exact c1
            · exact c3 p hp l2 hl2
          · intro p hp l2 hl2 hlen2
            rcases List.mem_cons.1 hp with rfl | hp
            · rw [hcell] at hl2
              cases hl2
              rcases c2 with heq | hlt
              · rw [heq]; exact rmLE.refl _
              · omega
            · exact c5 p hp l2 hl2 hlen2
        · -- candidate list but not strictly shorter: the state is unchanged
          have hstep : mccStep g (m, r, c) q = (m, r, c) := by
            simp [mccStep, hcell, hlen]
          rw [hstep]
          obtain ⟨c1, c2, c3, c4, c5⟩ := ih m r c hm hboundL hpwL
            (fun p hp => hle p (List.mem_cons_of_mem _ hp)) h1
            (fun hlt p hp => h2 hlt p (List.mem_cons_of_mem _ hp))
          refine ⟨c1, c2, ?_, c4, ?_⟩
          · intro p hp l2 hl2
            rcases List.mem_cons.1 hp with rfl | hp
            · rw [hcell] at hl2; cases hl2; omega
            · exact c3 p hp l2 hl2
          · intro p hp l2 hl2 hlen2
            rcases List.mem_cons.1 hp with rfl | hp
            · rw [hcell] at hl2
              cases hl2
              rcases c2 with heq | hlt
              · rw [heq] at hlen2 ⊢
                exact hle p (List.mem_cons_self ..)
              · omega
            · exact c5 p hp l2 hl2 hlen2

lemma fmcc_eq_mccState (b : Board) :
    b.find_most_constrained_cell = ((mccState b).2.1, (mccState b).2.2) := rfl

lemma mccState_spec (b : Board) :
    (mccState b).1 ≤ size ∧
    (mccState b = (size, 0, 0) ∨ (mccState b).1 < size) ∧
    (∀ p ∈ allCoords, ∀ l, b.rows p.1 p.2 = Cell.cands l → (mccState b).1 ≤ l.length) ∧
    ((mccState b).1 < size →
      (mccState b).2.1 < size ∧ (mccState b).2.2 < size ∧
      ∃ l, b.rows (mccState b).2.1 (mccState b).2.2 = Cell.cands l ∧
            l.length = (mccState b).1) ∧
    (∀ p ∈ allCoords, ∀ l, b.rows p.1 p.2 = Cell.cands l → l.length = (mccState b).1 →
      rmLE ((mccState b).2.1, (mccState b).2.2) p) := by
  have h := mccFold_spec b.rows allCoords size 0 0 (Nat.le_refl _)
    (by decide) (by decide) (by decide)
    (by intro h; omega) (by intro h; omega)
  exact h

lemma mccState_min (b : Board) (i j : Nat) (l : List Nat) (hi : i < size) (hj : j < size)
    (hc : b.rows i j = Cell.cands l) : (mccState b).1 ≤ l.length :=
  (mccState_spec b).2.2.1 (i, j) ((mem_allCoords i j).2 ⟨hi, hj⟩) l hc

lemma mccState_cell (b : Board) (h : (mccState b).1 < size) :
    (mccState b).2.1 < size ∧ (mccState b).2.2 < size ∧
    ∃ l, b.rows (mccState b).2.1 (mccState b).2.2 = Cell.cands l ∧
          l.length = (mccState b).1 :=
  (mccState_spec b).2.2.2.1 h

lemma mccState_first (b : Board) (i j : Nat) (l : List Nat) (hi : i < size) (hj : j < size)
    (hc : b.rows i j = Cell.cands l) (hlen : l.length = (mccState b).1) :
    rmLE ((mccState b).2.1, (mccState b).2.2) (i, j) :=
  (mccState_spec b).2.2.2.2 (i, j) ((mem_allCoords i j).2 ⟨hi, hj⟩) l hc hlen

lemma mccState_of_not_lt (b : Board) (h : ¬ (mccState b).1 < size) :
    mccState b = (size, 0, 0) := by
  rcases (mccState_spec b).2.1 with heq | hlt
  · exact heq
  · exact absurd hlt h

/-! ### Counting fixed and candidate cells -/

lemma countP_flip_true {α : Type} (L : List α) (a : α) (p q : α → Bool)
    (hnd : L.Nodup) (ha : a ∈ L) (hsame : ∀ x ∈ L, x ≠ a → q x = p x)
    (hpa : p a = false) (hqa : q a = true) :
    L.countP q = L.countP p + 1 := by
  induction L with
  | nil => cases ha
  | cons x L ih =>
      rcases List.mem_cons.1 ha with rfl | haL
      · have hnotin : a ∉ L := (List.nodup_cons.1 hnd).1
        have hLeq : L.countP q = L.countP p := by
          apply List.countP_congr
          intro y hy
          rw [hsame y (List.mem_cons_of_mem _ hy) (fun h => hnotin (h ▸ hy))]
        rw [List.countP_cons, List.countP_cons, hpa, hqa, hLeq]
        simp
      · have hx : x ≠ a := fun h => ((List.nodup_cons.1 hnd).1 (h ▸ haL))
        rw [List.countP_cons, List.countP_cons, hsame x (List.mem_cons_self ..) hx,
          ih (List.nodup_cons.1 hnd).2 haL
            (fun y hy hne => hsame y (List.mem_cons_of_mem _ hy) hne)]
        omega

lemma update_isFixed_other (b : Board) (row column v i j : Nat)
    (h : ¬(i = row ∧ j = column)) :
    isFixedCell ((b.update row column v).rows i j) = isFixedCell (b.rows i j) := by
  rw [update_rows_point, setCell_other _ _ _ _ _ _ h]
  cases hb : b.rows i j with
  | fixed n => rw [iterate_rie_fixed]
  | cands l => obtain ⟨l2, h1, _⟩ := iterate_rie_cands v _ l; rw [h1]; rfl

lemma update_isCands_other (b : Board) (row column v i j : Nat)
    (h : ¬(i = row ∧ j = column)) :
    isCandsCell ((b.update row column v).rows i j) = isCandsCell (b.rows i j) := by
  rw [update_rows_point, setCell_other _ _ _ _ _ _ h]
  cases hb : b.rows i j with
  | fixed n => rw [iterate_rie_fixed]
  | cands l => obtain ⟨l2, h1, _⟩ := iterate_rie_cands v _ l; rw [h1]; rfl

lemma numFixed_update_of_cands (b : Board) (row column v : Nat) (l : List Nat)
    (hrow : row < size) (hcol : column < size) (hc : b.rows row column = Cell.cands l) :
    numFixed (b.update row column v) = numFixed b + 1 := by
  apply countP_flip_true allCoords (row, column) _ _ (by decide)
    ((mem_allCoords row column).2 ⟨hrow, hcol⟩)
  · intro x _ hne
    obtain ⟨x1, x2⟩ := x
    apply update_isFixed_other
    intro h
    exact hne (Prod.ext h.1 h.2)
  · rw [hc]; rfl
  · rw [update_rows_self]; rfl

lemma candsCount_update_of_cands (b : Board) (row column v : Nat) (l : List Nat)
    (hrow : row < size) (hcol : column < size) (hc : b.rows row column = Cell.cands l) :
    candsCount b = candsCount (b.update row column v) + 1 := by
  apply countP_flip_true allCoords (row, column) _ _ (by decide)
    ((mem_allCoords row column).2 ⟨hrow, hcol⟩)
  · intro x _ hne
    obtain ⟨x1, x2⟩ := x
    refine (update_isCands_other b row column v x1 x2 ?_).symm
    intro h
    exact hne (Prod.ext h.1 h.2)
  · rw [update_rows_self]; rfl
  · rw [hc]; rfl

lemma numFixed_eq_total (b : Board) (h : numFixed b = size * size) :
    ∀ i j, i < size → j < size → isFixedCell (b.rows i j) = true := by
  intro i j hi hj
  have hlen : allCoords.length = size * size := by decide
  have := List.countP_eq_length.1 (by rw [numFixed] at h; rw [h, hlen])
  exact this (i, j) ((mem_allCoords i j).2 ⟨hi, hj⟩)

lemma exists_cands_of_not_total (b : Board) (h : numFixed b ≠ size * size) :
    ∃ i j l, i < size ∧ j < size ∧ b.rows i j = Cell.cands l := by
  by_contra hno
  push_neg at hno
  apply h
  have : ∀ p ∈ allCoords, isFixedCell (b.rows p.1 p.2) = true := by
    intro p hp
    obtain ⟨i, j⟩ := p
    have hb := (mem_allCoords i j).1 hp
    cases hcell : b.rows i j with
    | fixed n => rfl
    | cands l => exact absurd hcell (hno i j l hb.1 hb.2)
  rw [numFixed, List.countP_eq_length.2 this]
  decide

lemma cands_length_le_size (l : List Nat) (hnd : l.Nodup)
    (hsub : ∀ x ∈ l, 1 ≤ x ∧ x ≤ size) : l.length ≤ size := by
  have h1 : l.toFinset ⊆ Finset.Icc 1 size := by
    intro x hx
    rw [List.mem_toFinset] at hx
    rw [Finset.mem_Icc]
    exact hsub x hx
  have h2 : l.toFinset.card = l.length := List.toFinset_card_of_nodup hnd
  have h3 := Finset.card_le_card h1
  rw [h2, Nat.card_Icc] at h3
  omega

/-- A duplicate-free list of 9 values from `1..9` contains every value in `1..9`. -/
lemma full_list_mem (l : List Nat) (hnd : l.Nodup)
    (hsub : ∀ x ∈ l, 1 ≤ x ∧ x ≤ size) (hlen : l.length = size)
    (v : Nat) (hv1 : 1 ≤ v) (hv2 : v ≤ size) : v ∈ l := by
  have h1 : l.toFinset ⊆ Finset.Icc 1 size := by
    intro x hx
    rw [List.mem_toFinset] at hx
    rw [Finset.mem_Icc]
    exact hsub x hx
  have h2 : l.toFinset.card = l.length := List.toFinset_card_of_nodup hnd
  have heq : l.toFinset = Finset.Icc 1 size := by
    apply Finset.eq_of_subset_of_card_le h1
    rw [h2, hlen, Nat.card_Icc]
    omega
  rw [← List.mem_toFinset, heq]
  exact Finset.mem_Icc.2 ⟨hv1, hv2⟩

/-- On a well-formed board satisfying the elimination invariant, if some cell
is assigned and every candidate list has full length 9, then no cell holds a
candidate list at all. -/
lemma no_cands_of_all_nine (b : Board) (hwf : BoardWF b) (helim : ElimInv b)
    (rf cf n : Nat) (hrf : rf < size) (hcf : cf < size)
    (hfix : b.rows rf cf = Cell.fixed n)
    (hall9 : ∀ i j l, i < size → j < size → b.rows i j = Cell.cands l →
      l.length = size) :
    ∀ i j l, i < size → j < size → b.rows i j ≠ Cell.cands l := by
  have hnwf : 1 ≤ n ∧ n ≤ size := by
    have := hwf rf cf hrf hcf
    rw [hfix] at this
    exact this
  -- step 1: the whole row rf is assigned
  have hrow : ∀ j, j < size → ∀ l, b.rows rf j ≠ Cell.cands l := by
    intro j hj l hcell
    by_cases hjc : j = cf
    · rw [hjc, hfix] at hcell; cases hcell
    · have hmem : n ∉ l :=
        helim rf cf rf j n l hrf hcf hrf hj hfix (Or.inl rfl)
          (fun h => hjc h.2) hcell
      have hcwf := hwf rf j hrf hj
      rw [hcell] at hcwf
      exact hmem (full_list_mem l hcwf.1 hcwf.2
        (hall9 rf j l hrf hj hcell) n hnwf.1 hnwf.2)
  -- step 2: any candidate cell would clash with the assigned cell above it
  intro i j l hi hj hcell
  have hrfj : ∃ m, b.rows rf j = Cell.fixed m := by
    cases hc : b.rows rf j with
    | fixed m => exact ⟨m, rfl⟩
    | cands l2 => exact absurd hc (hrow j hj l2)
  obtain ⟨m, hm⟩ := hrfj
  have hine : i ≠ rf := by
    intro h
    exact hrow j hj l (h ▸ hcell)
  have hmwf : 1 ≤ m ∧ m ≤ size := by
    have := hwf rf j hrf hj
    rw [hm] at this
    exact this
  have hmem : m ∉ l :=
    helim rf j i j m l hrf hj hi hj hm (Or.inr (Or.inl rfl))
      (fun h => hine h.1) hcell
  have hcwf := hwf i j hi hj
  rw [hcell] at hcwf
  exact hmem (full_list_mem l hcwf.1 hcwf.2
    (hall9 i j l hi hj hcell) m hmwf.1 hmwf.2)

/-! ### Unfolding equations of the DFS loop -/

lemma DFSRun_nil (n : Nat) : DFSRun (n + 1) [] = some (.ret none) := rfl

lemma DFSRun_goal (n : Nat) (curr : Board) (rest : List Board)
    (hg : curr.goal_test = true) :
    DFSRun (n + 1) (curr :: rest) = some (.ret (some curr)) := by
  simp [DFSRun, hg]

lemma DFSRun_failure (n : Nat) (curr : Board) (rest : List Board)
    (hg : curr.goal_test = false) (hf : curr.failure_test = true) :
    DFSRun (n + 1) (curr :: rest) = DFSRun n rest := by
  simp [DFSRun, hg, hf]

lemma DFSRun_expand (n : Nat) (curr : Board) (rest : List Board) (l : List Nat)
    (hg : curr.goal_test = false) (hf : curr.failure_test = false)
    (hl : curr.rows curr.find_most_constrained_cell.1
      curr.find_most_constrained_cell.2 = Cell.cands l) :
    DFSRun (n + 1) (curr :: rest)
      = DFSRun n (l.foldl (fun s pos =>
          curr.update curr.find_most_constrained_cell.1
            curr.find_most_constrained_cell.2 pos :: s) rest) := by
  simp only [DFSRun, hg, hf]
  rw [hl]
  simp

lemma DFSRun_expand_err (n : Nat) (curr : Board) (rest : List Board) (m : Nat)
    (hg : curr.goal_test = false) (hf : curr.failure_test = false)
    (hl : curr.rows curr.find_most_constrained_cell.1
      curr.find_most_constrained_cell.2 = Cell.fixed m) :
    DFSRun (n + 1) (curr :: rest) = some .err := by
  simp only [DFSRun, hg, hf]
  rw [hl]
  simp

/-- Pushing one board per list element onto a stack, in list order. -/
lemma foldl_push_eq (l : List Nat) (f : Nat → Board) (rest : List Board) :
    l.foldl (fun s pos => f pos :: s) rest = (l.map f).reverse ++ rest := by
  induction l generalizing rest with
  | nil => rfl
  | cons x l ih =>
      simp only [List.foldl_cons, List.map_cons, List.reverse_cons, List.append_assoc]
      rw [ih]
      simp

lemma fmcc_bounds (b : Board) :
    b.find_most_constrained_cell.1 < size ∧ b.find_most_constrained_cell.2 < size := by
  rw [fmcc_eq_mccState]
  by_cases hlt : (mccState b).1 < size
  · obtain ⟨h1, h2, _⟩ := mccState_cell b hlt
    exact ⟨h1, h2⟩
  · rw [mccState_of_not_lt b hlt]
    decide

/-- The loop returns the failure signal exactly when iterating `NextStack`
(popping only non-goal boards) empties the frontier. -/
lemma DFSRun_ret_none_iff (s : List Board) :
    (∃ n, DFSRun n s = some (DfsResult.ret none)) ↔
      Relation.ReflTransGen NextStack s [] := by
  constructor
  · rintro ⟨n, hn⟩
    induction n generalizing s with
    | zero => cases hn
    | succ n ih =>
        cases s with
        | nil => exact Relation.ReflTransGen.refl
        | cons curr rest =>
            cases hg : curr.goal_test with
            | true => rw [DFSRun_goal n curr rest hg] at hn; simp at hn
            | false =>
                cases hf : curr.failure_test with
                | true =>
                    rw [DFSRun_failure n curr rest hg hf] at hn
                    exact Relation.ReflTransGen.head
                      ⟨curr, rest, rfl, hg, Or.inl ⟨hf, rfl⟩⟩ (ih rest hn)
                | false =>
                    cases hl : curr.rows curr.find_most_constrained_cell.1
                        curr.find_most_constrained_cell.2 with
                    | fixed m =>
                        rw [DFSRun_expand_err n curr rest m hg hf hl] at hn
                        simp at hn
                    | cands l =>
                        rw [DFSRun_expand n curr rest l hg hf hl] at hn
                        exact Relation.ReflTransGen.head
                          ⟨curr, rest, rfl, hg, Or.inr ⟨hf, l, hl, rfl⟩⟩
                          (ih _ hn)
  · intro h
    induction h using Relation.ReflTransGen.head_induction_on with
    | refl => exact ⟨1, rfl⟩
    | head hstep _ ih =>
        obtain ⟨n, hn⟩ := ih
        obtain ⟨curr, rest, rfl, hg, hbranch⟩ := hstep
        rcases hbranch with ⟨hf, ht⟩ | ⟨hf, l, hl, ht⟩
        · refine ⟨n + 1, ?_⟩
          rw [DFSRun_failure n curr rest hg hf, ← ht]
          exact hn
        · refine ⟨n + 1, ?_⟩
          rw [DFSRun_expand n curr rest l hg hf hl, ← ht]
          exact hn

lemma boardSorted_init : BoardSorted Board.init := by
  intro i j l _ _ h
  have : Cell.cands (List.range' 1 9) = Cell.cands l := h
  cases this
  decide

lemma boardSorted_update (b : Board) (row col u : Nat) (hs : BoardSorted b) :
    BoardSorted (b.update row col u) := by
  intro i j l hi hj hcell
  by_cases hij : i = row ∧ j = col
  · rw [hij.1, hij.2, update_rows_self] at hcell
    cases hcell
  · obtain ⟨l0, hl0, hsub⟩ := update_rows_cands b row col u i j l hij hcell
    exact (hs i j l0 hi hj hl0).sublist hsub

/-! ### Preservation of the data-model invariants by `update` -/

lemma exists_cands_of_isCands (c : Cell) (h : isCandsCell c = true) :
    ∃ l, c = Cell.cands l := by
  cases c with
  | fixed n => cases h
  | cands l => exact ⟨l, rfl⟩

lemma boardWF_init : BoardWF Board.init := by
  intro i j _ _
  show CellWF (Cell.cands (List.range' 1 9))
  exact ⟨by decide, by decide⟩

lemma elimInv_init : ElimInv Board.init := by
  intro a b2 i j n l _ _ _ _ h
  cases h

lemma boardWF_update (b : Board) (hwf : BoardWF b) (row col u : Nat)
    (hu1 : 1 ≤ u) (hu2 : u ≤ size) : BoardWF (b.update row col u) := by
  intro i j hi hj
  by_cases hij : i = row ∧ j = col
  · rw [hij.1, hij.2, update_rows_self]
    exact ⟨hu1, hu2⟩
  · cases hcell : (b.update row col u).rows i j with
    | fixed n =>
        have h0 := (update_rows_fixed_iff b row col u i j n hij).1 hcell
        have hw := hwf i j hi hj
        rw [h0] at hw
        exact hw
    | cands l =>
        obtain ⟨l0, hl0, hsub⟩ := update_rows_cands b row col u i j l hij hcell
        have hw := hwf i j hi hj
        rw [hl0] at hw
        exact ⟨hw.1.sublist hsub, fun x hx => hw.2 x (hsub.subset hx)⟩

lemma elimInv_update (b : Board) (hwf : BoardWF b) (helim : ElimInv b)
    (row col u : Nat) : ElimInv (b.update row col u) := by
  intro a b2 i j n l ha hb2 hi hj hfix hpeer hne hcands
  have hijne : ¬(i = row ∧ j = col) := by
    intro h
    rw [h.1, h.2, update_rows_self] at hcands
    cases hcands
  obtain ⟨l0, hl0, hsub⟩ := update_rows_cands b row col u i j l hijne hcands
  have hnd : ∀ l2, b.rows i j = Cell.cands l2 → l2.Nodup := by
    intro l2 h2
    have hw := hwf i j hi hj
    rw [h2] at hw
    exact hw.1
  by_cases hab : a = row ∧ b2 = col
  · have hself : (b.update row col u).rows a b2 = Cell.fixed u := by
      rw [hab.1, hab.2]
      exact update_rows_self ..
    have hnu : n = u := by
      have := hself.symm.trans hfix
      cases this
      rfl
    have hmem : (i, j) ∈ updateTargets row col := by
      rcases hpeer with h | h | h
      · rw [h, hab.1]
        exact mem_updateTargets_row row col j hj
      · rw [h, hab.2]
        exact mem_updateTargets_col row col i hi
      · rw [← hab.1, ← hab.2]
        exact mem_updateTargets_subgrid a b2 (i, j) h
    rw [hnu]
    exact update_eliminates b row col u i j hmem hnd l hcands
  · have hfix0 : b.rows a b2 = Cell.fixed n :=
      (update_rows_fixed_iff b row col u a b2 n hab).1 hfix
    have hold := helim a b2 i j n l0 ha hb2 hi hj hfix0 hpeer hne hl0
    exact fun hx => hold (hsub.subset hx)

/-- One DFS expansion step preserves the seed invariant: assigning any value
taken from the candidate list of a cell keeps all seven properties. -/
lemma seedInv_step (r c1 c2 v : Nat) (b : Board) (inv : SeedInv r c1 c2 v b)
    (rr cc : Nat) (hrr : rr < size) (hcc : cc < size)
    (l : List Nat) (hl : b.rows rr cc = Cell.cands l) (u : Nat) (hu : u ∈ l) :
    SeedInv r c1 c2 v (b.update rr cc u) := by
  have hwfcell := inv.wf rr cc hrr hcc
  rw [hl] at hwfcell
  have hurange : 1 ≤ u ∧ u ≤ size := hwfcell.2 u hu
  have hne1 : ¬(r = rr ∧ c1 = cc) := by
    intro h
    rw [← h.1, ← h.2, inv.seed1] at hl
    cases hl
  have hne2 : ¬(r = rr ∧ c2 = cc) := by
    intro h
    rw [← h.1, ← h.2, inv.seed2] at hl
    cases hl
  -- a new assigned value differs from every assigned peer of the target cell
  have hfreshrow : ∀ j2 n2, j2 < size → j2 ≠ cc →
      b.rows rr j2 = Cell.fixed n2 → u ≠ n2 := by
    intro j2 n2 hj2 hnecc hfixp heq
    have := inv.elimI rr j2 rr cc n2 l hrr hj2 hrr hcc hfixp
      (Or.inl rfl) (fun h => hnecc h.2.symm) hl
    exact this (heq ▸ hu)
  have hfreshcol : ∀ i2 n2, i2 < size → i2 ≠ rr →
      b.rows i2 cc = Cell.fixed n2 → u ≠ n2 := by
    intro i2 n2 hi2 hnei hfixp heq
    have := inv.elimI i2 cc rr cc n2 l hi2 hcc hrr hcc hfixp
      (Or.inr (Or.inl rfl)) (fun h => hnei h.1.symm) hl
    exact this (heq ▸ hu)
  refine ⟨boardWF_update b inv.wf rr cc u hurange.1 hurange.2,
    elimInv_update b inv.wf inv.elimI rr cc u,
    ?_, ?_, ?_, ?_, ?_⟩
  · exact (update_rows_fixed_iff b rr cc u r c1 v hne1).2 inv.seed1
  · exact (update_rows_fixed_iff b rr cc u r c2 v hne2).2 inv.seed2
  · rw [update_num, numFixed_update_of_cands b rr cc u l hrr hcc hl, inv.count]
  · intro i j j2 n n2 hi hj hj2 hjne hfix1 hfix2
    by_cases h1 : i = rr ∧ j = cc
    · have hnu : n = u := by
        rw [h1.1, h1.2, update_rows_self] at hfix1
        cases hfix1
        rfl
      have h2 : ¬(i = rr ∧ j2 = cc) := fun h => hjne (h1.2.trans h.2.symm)
      have hfix2b : b.rows i j2 = Cell.fixed n2 :=
        (update_rows_fixed_iff b rr cc u i j2 n2 h2).1 hfix2
      right
      rw [hnu]
      exact hfreshrow j2 n2 hj2 (fun h => hjne (h1.2.trans h.symm))
        (h1.1 ▸ hfix2b)
    · by_cases h2 : i = rr ∧ j2 = cc
      · have hnu : n2 = u := by
          rw [h2.1, h2.2, update_rows_self] at hfix2
          cases hfix2
          rfl
        have hfix1b : b.rows i j = Cell.fixed n :=
          (update_rows_fixed_iff b rr cc u i j n h1).1 hfix1
        right
        intro heq
        exact hfreshrow j n hj (fun h => hjne (h.trans h2.2.symm))
          (h2.1 ▸ hfix1b) (heq.trans hnu).symm
      · exact inv.rowsD i j j2 n n2 hi hj hj2 hjne
          ((update_rows_fixed_iff b rr cc u i j n h1).1 hfix1)
          ((update_rows_fixed_iff b rr cc u i j2 n2 h2).1 hfix2)
  · intro i i2 j n n2 hi hi2 hj hine hfix1 hfix2
    by_cases h1 : i = rr ∧ j = cc
    · have hnu : n = u := by
        rw [h1.1, h1.2, update_rows_self] at hfix1
        cases hfix1
        rfl
      have h2 : ¬(i2 = rr ∧ j = cc) := fun h => hine (h1.1.trans h.1.symm)
      have hfix2b : b.rows i2 j = Cell.fixed n2 :=
        (update_rows_fixed_iff b rr cc u i2 j n2 h2).1 hfix2
      rw [hnu]
      exact hfreshcol i2 n2 hi2 (fun h => hine (h1.1.trans h.symm))
        (h1.2 ▸ hfix2b)
    · by_cases h2 : i2 = rr ∧ j = cc
      · have hnu : n2 = u := by
          rw [h2.1, h2.2, update_rows_self] at hfix2
          cases hfix2
          rfl
        have hfix1b : b.rows i j = Cell.fixed n :=
          (update_rows_fixed_iff b rr cc u i j n h1).1 hfix1
        intro heq
        exact hfreshcol i n hi (fun h => hine (h.trans h2.1.symm))
          (h2.2 ▸ hfix1b) (heq.trans hnu).symm
      · exact inv.colsD i i2 j n n2 hi hi2 hj hine
          ((update_rows_fixed_iff b rr cc u i j n h1).1 hfix1)
          ((update_rows_fixed_iff b rr cc u i2 j n2 h2).1 hfix2)

/-- Counting the duplicated value `v` by rows and by columns is contradictory
on a completely assigned board: every column carries `v` at most once (9 in
total), while row `r` carries it twice and every other row at least once (10
in total).  Hence no frontier board of the doomed search passes the goal
test. -/
lemma seedInv_no_goal (r c1 c2 v : Nat) (hr : r < size) (hc1 : c1 < size)
    (hc2 : c2 < size) (hcne : c1 ≠ c2) (b : Board) (inv : SeedInv r c1 c2 v b) :
    b.goal_test = false := by
  cases hgt : b.goal_test with
  | false => rfl
  | true =>
    exfalso
    have hnum : b.num_nums_placed = size * size := by
      have h := hgt
      simp [Board.goal_test] at h
      exact h
    have htotal : numFixed b = size * size := by rw [← inv.count, hnum]
    have hallf := numFixed_eq_total b htotal
    have hfix : ∀ i j, i < size → j < size →
        b.rows i j = Cell.fixed (cellVal (b.rows i j)) := by
      intro i j hi hj
      have hfc := hallf i j hi hj
      cases hc : b.rows i j with
      | fixed n => rfl
      | cands l => rw [hc] at hfc; cases hfc
    have hrange : ∀ i j, i < size → j < size →
        1 ≤ cellVal (b.rows i j) ∧ cellVal (b.rows i j) ≤ size := by
      intro i j hi hj
      have hw := inv.wf i j hi hj
      have hfc := hallf i j hi hj
      cases hc : b.rows i j with
      | fixed n => rw [hc] at hw; exact hw
      | cands l => rw [hc] at hfc; cases hfc
    have hvr : 1 ≤ v ∧ v ≤ size := by
      have hw := inv.wf r c1 hr hc1
      rw [inv.seed1] at hw
      exact hw
    -- each column contains v at most once
    have hcol : ∀ j, j < size →
        ((Finset.range size).filter (fun i => cellVal (b.rows i j) = v)).card ≤ 1 := by
      intro j hj
      rw [Finset.card_le_one]
      intro i hi i2 hi2
      rw [Finset.mem_filter, Finset.mem_range] at hi hi2
      by_contra hne
      have h1 : b.rows i j = Cell.fixed v := by
        rw [hfix i j hi.1 hj, hi.2]
      have h2 : b.rows i2 j = Cell.fixed v := by
        rw [hfix i2 j hi2.1 hj, hi2.2]
      exact inv.colsD i i2 j v v hi.1 hi2.1 hj hne h1 h2 rfl
    -- row r contains v at least twice
    have hrowr : 2 ≤
        ((Finset.range size).filter (fun j => cellVal (b.rows r j) = v)).card := by
      have hsub : ({c1, c2} : Finset Nat) ⊆
          (Finset.range size).filter (fun j => cellVal (b.rows r j) = v) := by
        intro x hx
        rw [Finset.mem_insert, Finset.mem_singleton] at hx
        rw [Finset.mem_filter, Finset.mem_range]
        rcases hx with rfl | rfl
        · exact ⟨hc1, by rw [inv.seed1]; rfl⟩
        · exact ⟨hc2, by rw [inv.seed2]; rfl⟩
      have hcard : ({c1, c2} : Finset Nat).card = 2 := by
        rw [Finset.card_insert_of_not_mem (by simpa using hcne),
          Finset.card_singleton]
      calc 2 = ({c1, c2} : Finset Nat).card := hcard.symm
        _ ≤ _ := Finset.card_le_card hsub
    -- every other row contains v at least once
    have hrowo : ∀ i, i < size → i ≠ r →
        1 ≤ ((Finset.range size).filter (fun j => cellVal (b.rows i j) = v)).card := by
      intro i hi hir
      have hinj : Set.InjOn (fun j => cellVal (b.rows i j))
          ↑(Finset.range size) := by
        intro j hj j2 hj2 heq
        rw [Finset.mem_coe, Finset.mem_range] at hj hj2
        by_contra hne
        have h1 := hfix i j hi hj
        have h2 := hfix i j2 hi hj2
        rcases inv.rowsD i j j2 (cellVal (b.rows i j)) (cellVal (b.rows i j2))
            hi hj hj2 hne h1 h2 with ⟨hirr, _⟩ | hnev
        · exact hir hirr
        · exact hnev heq
      have himg : (Finset.range size).image (fun j => cellVal (b.rows i j))
          = Finset.Icc 1 size := by
        apply Finset.eq_of_subset_of_card_le
        · intro x hx
          rw [Finset.mem_image] at hx
          obtain ⟨j, hj, rfl⟩ := hx
          rw [Finset.mem_range] at hj
          rw [Finset.mem_Icc]
          exact hrange i j hi hj
        · rw [Finset.card_image_of_injOn hinj, Finset.card_range, Nat.card_Icc]
          omega
      have hv : v ∈ (Finset.range size).image (fun j => cellVal (b.rows i j)) := by
        rw [himg, Finset.mem_Icc]
        exact hvr
      obtain ⟨j, hj, hjv⟩ := Finset.mem_image.1 hv
      have : ((Finset.range size).filter
          (fun j => cellVal (b.rows i j) = v)).Nonempty :=
        ⟨j, Finset.mem_filter.2 ⟨hj, hjv⟩⟩
      have := Finset.card_pos.2 this
      omega
    -- summing the row counts exceeds summing the column counts
    have hT_ge : (10 : Nat) ≤ ∑ i ∈ Finset.range size,
        ((Finset.range size).filter (fun j => cellVal (b.rows i j) = v)).card := by
      have hterm : ∀ i ∈ Finset.range size, (if i = r then 2 else 1) ≤
          ((Finset.range size).filter (fun j => cellVal (b.rows i j) = v)).card := by
        intro i hi
        rw [Finset.mem_range] at hi
        by_cases hir : i = r
        · rw [if_pos hir, hir]
          exact hrowr
        · rw [if_neg hir]
          exact hrowo i hi hir
      have hsum : ∑ i ∈ Finset.range size, (if i = r then 2 else 1) = 10 := by
        have hrw : ∀ i, (if i = r then 2 else 1) = 1 + (if i = r then 1 else 0) := by
          intro i
          by_cases h : i = r <;> simp [h]
        rw [Finset.sum_congr rfl (fun i _ => hrw i), Finset.sum_add_distrib,
          Finset.sum_const, Finset.card_range,
          Finset.sum_ite_eq' (Finset.range size) r (fun _ => 1)]
        have : r ∈ Finset.range size := Finset.mem_range.2 hr
        rw [if_pos this]
        decide
      calc (10 : Nat) = ∑ i ∈ Finset.range size, (if i = r then 2 else 1) :=
            hsum.symm
        _ ≤ _ := Finset.sum_le_sum hterm
    have hT_le : (∑ i ∈ Finset.range size,
        ((Finset.range size).filter (fun j => cellVal (b.rows i j) = v)).card) ≤ 9 := by
      have hswap : (∑ i ∈ Finset.range size,
          ((Finset.range size).filter (fun j => cellVal (b.rows i j) = v)).card)
          = ∑ j ∈ Finset.range size,
            ((Finset.range size).filter (fun i => cellVal (b.rows i j) = v)).card := by
        calc (∑ i ∈ Finset.range size,
              ((Finset.range size).filter (fun j => cellVal (b.rows i j) = v)).card)
            = ∑ i ∈ Finset.range size, ∑ j ∈ Finset.range size,
                if cellVal (b.rows i j) = v then 1 else 0 :=
              Finset.sum_congr rfl (fun i _ => Finset.card_filter ..)
          _ = ∑ j ∈ Finset.range size, ∑ i ∈ Finset.range size,
                if cellVal (b.rows i j) = v then 1 else 0 := Finset.sum_comm
          _ = ∑ j ∈ Finset.range size,
                ((Finset.range size).filter (fun i => cellVal (b.rows i j) = v)).card :=
              Finset.sum_congr rfl (fun j _ => (Finset.card_filter ..).symm)
      rw [hswap]
      calc (∑ j ∈ Finset.range size,
            ((Finset.range size).filter (fun i => cellVal (b.rows i j) = v)).card)
          ≤ ∑ j ∈ Finset.range size, 1 :=
            Finset.sum_le_sum (fun j hj => hcol j (Finset.mem_range.1 hj))
        _ = 9 := by simp [size]
    omega

/-- On a frontier board of the doomed search that is not a goal, the scan
lands on a genuine candidate cell (so the `for pos in possibilities` loop
iterates a list and no `TypeError` can occur). -/
lemma seedInv_mcc (r c1 c2 v : Nat) (hr : r < size) (hc1 : c1 < size)
    (b : Board) (inv : SeedInv r c1 c2 v b) (hgoal : b.goal_test = false) :
    ∃ l, b.rows b.find_most_constrained_cell.1 b.find_most_constrained_cell.2
          = Cell.cands l ∧
      b.find_most_constrained_cell.1 < size ∧
      b.find_most_constrained_cell.2 < size := by
  have hnum : b.num_nums_placed ≠ size * size := by
    intro h
    rw [Board.goal_test] at hgoal
    simp [h] at hgoal
  have htot : numFixed b ≠ size * size := by
    rw [← inv.count]
    exact hnum
  obtain ⟨i0, j0, l0, hi0, hj0, hc0⟩ := exists_cands_of_not_total b htot
  have hshort : ∃ i j l, i < size ∧ j < size ∧ b.rows i j = Cell.cands l ∧
      l.length < size := by
    by_cases hall9 : ∀ i j l, i < size → j < size → b.rows i j = Cell.cands l →
        l.length = size
    · exact absurd hc0
        (no_cands_of_all_nine b inv.wf inv.elimI r c1 v hr hc1 inv.seed1 hall9
          i0 j0 l0 hi0 hj0)
    · push_neg at hall9
      obtain ⟨i, j, l, hi, hj, hcell, hne⟩ := hall9
      have hw := inv.wf i j hi hj
      rw [hcell] at hw
      have := cands_length_le_size l hw.1 hw.2
      exact ⟨i, j, l, hi, hj, hcell, by omega⟩
  obtain ⟨i, j, l, hi, hj, hcell, hlen⟩ := hshort
  have hlt : (mccState b).1 < size :=
    Nat.lt_of_le_of_lt (mccState_min b i j l hi hj hcell) hlen
  obtain ⟨hb1, hb2, l2, hl2, _⟩ := mccState_cell b hlt
  rw [fmcc_eq_mccState]
  exact ⟨l2, hl2, hb1, hb2⟩

lemma stackMeasure_cons (b : Board) (s : List Board) :
    stackMeasure (b :: s) = 10 ^ (candsCount b + 1) + stackMeasure s := by
  simp [stackMeasure]

lemma stackMeasure_append (s t : List Board) :
    stackMeasure (s ++ t) = stackMeasure s + stackMeasure t := by
  simp [stackMeasure]

lemma stackMeasure_reverse (s : List Board) :
    stackMeasure s.reverse = stackMeasure s := by
  simp only [stackMeasure, List.map_reverse]
  exact List.sum_reverse _

lemma stackMeasure_map_const (l : List Nat) (f : Nat → Board) (k : Nat)
    (h : ∀ x ∈ l, candsCount (f x) = k) :
    stackMeasure (l.map f) = l.length * 10 ^ (k + 1) := by
  induction l with
  | nil => simp [stackMeasure]
  | cons x l ih =>
      rw [List.map_cons, stackMeasure_cons, h x (List.mem_cons_self ..),
        ih (fun y hy => h y (List.mem_cons_of_mem _ hy)), List.length_cons]
      ring

/-- The doomed search exhausts its frontier: with all frontier boards carrying
the seed invariant, some fuel suffices for the loop to return the failure
signal. -/
lemma dfs_doomed (r c1 c2 v : Nat) (hr : r < size) (hc1 : c1 < size)
    (hc2 : c2 < size) (hcne : c1 ≠ c2) :
    ∀ N s, stackMeasure s ≤ N → (∀ b ∈ s, SeedInv r c1 c2 v b) →
      ∃ n, DFSRun n s = some (DfsResult.ret none) := by
  intro N
  induction N with
  | zero =>
      intro s hμ hinv
      cases s with
      | nil => exact ⟨1, rfl⟩
      | cons b s =>
          exfalso
          have h1 : 0 < 10 ^ (candsCount b + 1) := pow_pos (by omega) _
          rw [stackMeasure_cons] at hμ
          omega
  | succ N ih =>
      intro s hμ hinv
      cases s with
      | nil => exact ⟨1, rfl⟩
      | cons curr rest =>
          have invc := hinv curr (List.mem_cons_self ..)
          have hinvrest : ∀ b ∈ rest, SeedInv r c1 c2 v b :=
            fun b hb => hinv b (List.mem_cons_of_mem _ hb)
          have hgoal := seedInv_no_goal r c1 c2 v hr hc1 hc2 hcne curr invc
          have hpow : 0 < 10 ^ (candsCount curr + 1) := pow_pos (by omega) _
          rw [stackMeasure_cons] at hμ
          cases hfail : curr.failure_test with
          | true =>
              obtain ⟨n, hn⟩ := ih rest (by omega) hinvrest
              refine ⟨n + 1, ?_⟩
              rw [DFSRun_failure n curr rest hgoal hfail]
              exact hn
          | false =>
              obtain ⟨l, hl, hb1, hb2⟩ := seedInv_mcc r c1 c2 v hr hc1 curr invc hgoal
              have hchildinv : ∀ u ∈ l, SeedInv r c1 c2 v
                  (curr.update curr.find_most_constrained_cell.1
                    curr.find_most_constrained_cell.2 u) :=
                fun u hu => seedInv_step r c1 c2 v curr invc _ _ hb1 hb2 l hl u hu
              have hcount := candsCount_update_of_cands curr
                curr.find_most_constrained_cell.1
                curr.find_most_constrained_cell.2 0 l hb1 hb2 hl
              have hchildcnt : ∀ u ∈ l, candsCount
                  (curr.update curr.find_most_constrained_cell.1
                    curr.find_most_constrained_cell.2 u) = candsCount curr - 1 := by
                intro u _
                have := candsCount_update_of_cands curr
                  curr.find_most_constrained_cell.1
                  curr.find_most_constrained_cell.2 u l hb1 hb2 hl
                omega
              have hwc := invc.wf _ _ hb1 hb2
              rw [hl] at hwc
              have hlen : l.length ≤ size := cands_length_le_size l hwc.1 hwc.2
              have hμ2 : stackMeasure
                  ((l.map (fun u => curr.update curr.find_most_constrained_cell.1
                    curr.find_most_constrained_cell.2 u)).reverse ++ rest) ≤ N := by
                rw [stackMeasure_append, stackMeasure_reverse,
                  stackMeasure_map_const _ _ (candsCount curr - 1) hchildcnt]
                have hkk : candsCount curr - 1 + 1 = candsCount curr := by omega
                rw [hkk]
                have hpow2 : 0 < 10 ^ candsCount curr := pow_pos (by omega) _
                have hpows : 10 ^ (candsCount curr + 1) = 10 * 10 ^ candsCount curr := by
                  rw [pow_succ]
                  ring
                have hbound : l.length * 10 ^ candsCount curr
                    ≤ 9 * 10 ^ candsCount curr :=
                  Nat.mul_le_mul_right _ (by simpa [size] using hlen)
                omega
              obtain ⟨n, hn⟩ := ih _ hμ2 (by
                intro b hb
                rcases List.mem_append.1 hb with hb | hb
                · rw [List.mem_reverse] at hb
                  obtain ⟨u, hu, rfl⟩ := List.mem_map.1 hb
                  exact hchildinv u hu
                · exact hinvrest b hb)
              refine ⟨n + 1, ?_⟩
              rw [DFSRun_expand n curr rest l hgoal hfail hl, foldl_push_eq]
              exact hn

/-- The seeded board itself satisfies the seed invariant: the only two
assigned cells are the two seeds of row `r`. -/
lemma seedInv_seed (r c1 c2 v : Nat) (hr : r < size) (hc1 : c1 < size)
    (hc2 : c2 < size) (hcne : c1 ≠ c2) (hv1 : 1 ≤ v) (hv2 : v ≤ size) :
    SeedInv r c1 c2 v ((Board.init.update r c1 v).update r c2 v) := by
  have hne12 : ¬(r = r ∧ c1 = c2) := fun h => hcne h.2
  have hne21 : ¬(r = r ∧ c2 = c1) := fun h => hcne h.2.symm
  have hinit : ∀ i j, Board.init.rows i j = Cell.cands (List.range' 1 9) :=
    fun _ _ => rfl
  have hsnd : ∃ l2, (Board.init.update r c1 v).rows r c2 = Cell.cands l2 := by
    cases hc : (Board.init.update r c1 v).rows r c2 with
    | cands l2 => exact ⟨l2, rfl⟩
    | fixed n =>
        have h0 := (update_rows_fixed_iff Board.init r c1 v r c2 n hne21).1 hc
        rw [hinit r c2] at h0
        cases h0
  obtain ⟨l2, hl2⟩ := hsnd
  have hchar : ∀ i j n,
      ((Board.init.update r c1 v).update r c2 v).rows i j = Cell.fixed n →
      (i = r ∧ j = c2 ∧ n = v) ∨ (i = r ∧ j = c1 ∧ n = v) := by
    intro i j n hcell
    by_cases h2 : i = r ∧ j = c2
    · left
      refine ⟨h2.1, h2.2, ?_⟩
      rw [h2.1, h2.2, update_rows_self] at hcell
      cases hcell
      rfl
    · have hcell1 := (update_rows_fixed_iff _ r c2 v i j n h2).1 hcell
      by_cases h1 : i = r ∧ j = c1
      · right
        refine ⟨h1.1, h1.2, ?_⟩
        rw [h1.1, h1.2, update_rows_self] at hcell1
        cases hcell1
        rfl
      · have hcell0 := (update_rows_fixed_iff Board.init r c1 v i j n h1).1 hcell1
        rw [hinit i j] at hcell0
        cases hcell0
  refine ⟨?_, ?_, ?_, ?_, ?_, ?_, ?_⟩
  · exact boardWF_update _ (boardWF_update _ boardWF_init r c1 v hv1 hv2)
      r c2 v hv1 hv2
  · exact elimInv_update _ (boardWF_update _ boardWF_init r c1 v hv1 hv2)
      (elimInv_update _ boardWF_init elimInv_init r c1 v) r c2 v
  · exact (update_rows_fixed_iff _ r c2 v r c1 v hne12).2
      (update_rows_self Board.init r c1 v)
  · exact update_rows_self _ r c2 v
  · have e1 : numFixed (Board.init.update r c1 v) = numFixed Board.init + 1 :=
      numFixed_update_of_cands Board.init r c1 v _ hr hc1 (hinit r c1)
    have e2 : numFixed ((Board.init.update r c1 v).update r c2 v)
        = numFixed (Board.init.update r c1 v) + 1 :=
      numFixed_update_of_cands _ r c2 v l2 hr hc2 hl2
    have e0 : numFixed Board.init = 0 := by decide
    rw [update_num, update_num, e2, e1, e0]
    rfl
  · intro i j j2 n n2 hi hj hj2 hjne hfix1 hfix2
    rcases hchar i j n hfix1 with ⟨hir, hjc, _⟩ | ⟨hir, hjc, _⟩ <;>
      rcases hchar i j2 n2 hfix2 with ⟨hir2, hjc2, _⟩ | ⟨hir2, hjc2, _⟩
    · exact absurd (hjc.trans hjc2.symm) hjne
    · exact Or.inl ⟨hir, Or.inr ⟨hjc, hjc2⟩⟩
    · exact Or.inl ⟨hir, Or.inl ⟨hjc, hjc2⟩⟩
    · exact absurd (hjc.trans hjc2.symm) hjne
  · intro i i2 j n n2 hi hi2 hj hine hfix1 hfix2
    rcases hchar i j n hfix1 with ⟨hir, _, _⟩ | ⟨hir, _, _⟩ <;>
      rcases hchar i2 j n2 hfix2 with ⟨hir2, _, _⟩ | ⟨hir2, _, _⟩ <;>
      exact absurd (hir.trans hir2.symm) hine

/-! ### Frame lemmas for the heap model -/

lemma updateTargets_range (row col : Nat) (hrow : row < size) (hcol : col < size) :
    ∀ p ∈ updateTargets row col, p.1 < size ∧ p.2 < size := by
  intro p hp
  rcases List.mem_append.1 hp with h | h
  · rw [List.mem_flatMap] at h
    obtain ⟨i, hi, hmem⟩ := h
    rw [List.mem_range] at hi
    rcases List.mem_cons.1 hmem with rfl | hmem2
    · exact ⟨hrow, hi⟩
    · rcases List.mem_singleton.1 hmem2 with rfl
      exact ⟨hi, hcol⟩
  · rw [subgrid_coordinates, List.mem_flatMap] at h
    obtain ⟨c, hc, hmem⟩ := h
    rw [List.mem_map] at hmem
    obtain ⟨r2, hr2, rfl⟩ := hmem
    have hcol3 : col / 3 = 0 ∨ col / 3 = 1 ∨ col / 3 = 2 := by
      have : col < 9 := hcol
      omega
    have hrow3 : row / 3 = 0 ∨ row / 3 = 1 ∨ row / 3 = 2 := by
      have : row < 9 := hrow
      omega
    constructor
    · show r2 < 9
      rcases hrow3 with h3 | h3 | h3 <;> rw [h3] at hr2 <;>
        simp [subgrids] at hr2 <;> omega
    · show c < 9
      rcases hcol3 with h3 | h3 | h3 <;> rw [h3] at hc <;>
        simp [subgrids] at hc <;> omega

lemma mccFoldH_bounds (b : BoardH) (σ : Store) :
    ∀ (L : List (Nat × Nat)) (st : Nat × Nat × Nat),
      (∀ p ∈ L, p.1 < size ∧ p.2 < size) → st.2.1 < size → st.2.2 < size →
      (L.foldl (mccStepH b σ) st).2.1 < size ∧
      (L.foldl (mccStepH b σ) st).2.2 < size := by
  intro L
  induction L with
  | nil => intro st _ h1 h2; exact ⟨h1, h2⟩
  | cons q L ih =>
      intro st hb h1 h2
      rw [List.foldl_cons]
      have hq := hb q (List.mem_cons_self ..)
      have hbL : ∀ p ∈ L, p.1 < size ∧ p.2 < size :=
        fun p hp => hb p (List.mem_cons_of_mem _ hp)
      cases hc : b.rows q.1 q.2 with
      | fixed n =>
          have hst : mccStepH b σ st q = st := by simp [mccStepH, hc]
          rw [hst]
          exact ih st hbL h1 h2
      | ref a =>
          by_cases hlt : (σ.mem a).length < st.1
          · have hst : mccStepH b σ st q = ((σ.mem a).length, q.1, q.2) := by
              simp [mccStepH, hc, hlt]
            rw [hst]
            exact ih _ hbL hq.1 hq.2
          · have hst : mccStepH b σ st q = st := by simp [mccStepH, hc, hlt]
            rw [hst]
            exact ih st hbL h1 h2

lemma fmccH_bounds (b : BoardH) (σ : Store) :
    (b.find_most_constrained_cell σ).1 < size ∧
    (b.find_most_constrained_cell σ).2 < size := by
  have := mccFoldH_bounds b σ allCoords (size, 0, 0) (by decide)
    (by decide) (by decide)
  exact this

lemma elimFoldH_frame (v N : Nat) (g : Nat → Nat → HCell) :
    ∀ (ps : List (Nat × Nat)) (σ : Store),
      (∀ p ∈ ps, ∀ a, g p.1 p.2 = HCell.ref a → N ≤ a) →
      (ps.foldl (fun σ p => remove_if_existsH σ (g p.1 p.2) v) σ).next = σ.next ∧
      ∀ x, x < N →
        (ps.foldl (fun σ p => remove_if_existsH σ (g p.1 p.2) v) σ).mem x
          = σ.mem x := by
  intro ps
  induction ps with
  | nil => intro σ _; exact ⟨rfl, fun _ _ => rfl⟩
  | cons q ps ih =>
      intro σ hab
      rw [List.foldl_cons]
      have habps : ∀ p ∈ ps, ∀ a, g p.1 p.2 = HCell.ref a → N ≤ a :=
        fun p hp => hab p (List.mem_cons_of_mem _ hp)
      cases hc : g q.1 q.2 with
      | fixed n =>
          have hstep : remove_if_existsH σ (HCell.fixed n) v = σ := rfl
          rw [hstep]
          exact ih σ habps
      | ref a =>
          have ha := hab q (List.mem_cons_self ..) a hc
          have hstep : remove_if_existsH σ (HCell.ref a) v
              = writeMem σ a ((σ.mem a).erase v) := rfl
          rw [hstep]
          obtain ⟨hn, hm⟩ := ih (writeMem σ a ((σ.mem a).erase v)) habps
          refine ⟨hn.trans rfl, fun x hx => (hm x hx).trans ?_⟩
          have hxa : x ≠ a := by omega
          simp [writeMem, hxa]

lemma updateH_frame (b : BoardH) (σ : Store) (row col u N : Nat)
    (hrow : row < size) (hcol : col < size) (habove : AddrsAbove b N) :
    AddrsAbove (b.update σ row col u).1 N ∧
    (b.update σ row col u).2.next = σ.next ∧
    ∀ x, x < N → (b.update σ row col u).2.mem x = σ.mem x := by
  have hab2 : AddrsAbove ⟨setCellH b.rows row col (.fixed u),
      b.num_nums_placed + 1⟩ N := by
    intro i j a hi hj hcell
    by_cases hij : i = row ∧ j = col
    · have : setCellH b.rows row col (.fixed u) i j = .fixed u := by
        simp [setCellH, hij]
      rw [show (⟨setCellH b.rows row col (.fixed u),
        b.num_nums_placed + 1⟩ : BoardH).rows = setCellH b.rows row col (.fixed u)
        from rfl] at hcell
      rw [this] at hcell
      cases hcell
    · have : setCellH b.rows row col (.fixed u) i j = b.rows i j := by
        simp [setCellH, hij]
      rw [show (⟨setCellH b.rows row col (.fixed u),
        b.num_nums_placed + 1⟩ : BoardH).rows = setCellH b.rows row col (.fixed u)
        from rfl] at hcell
      rw [this] at hcell
      exact habove i j a hi hj hcell
  refine ⟨hab2, ?_⟩
  apply elimFoldH_frame u N _ (updateTargets row col) σ
  intro p hp a hcell
  have hpr := updateTargets_range row col hrow hcol p hp
  exact hab2 p.1 p.2 a hpr.1 hpr.2 hcell

lemma deepcopyH_frame (b : BoardH) (σ : Store) (N : Nat) (hN : N ≤ σ.next) :
    AddrsAbove (deepcopyH b σ).1 σ.next ∧
    (deepcopyH b σ).2.next = σ.next + size * size ∧
    ∀ x, x < N → (deepcopyH b σ).2.mem x = σ.mem x := by
  refine ⟨?_, rfl, ?_⟩
  · intro i j a hi hj hcell
    show σ.next ≤ a
    have : (deepcopyH b σ).1.rows i j = match b.rows i j with
        | .fixed n => .fixed n
        | .ref _ => .ref (σ.next + size * i + j) := rfl
    rw [this] at hcell
    cases hc : b.rows i j with
    | fixed n => rw [hc] at hcell; cases hcell
    | ref a0 =>
        rw [hc] at hcell
        cases hcell
        omega
  · intro x hx
    show (if σ.next ≤ x ∧ x < σ.next + size * size then _ else σ.mem x) = σ.mem x
    have : ¬(σ.next ≤ x ∧ x < σ.next + size * size) := by omega
    rw [if_neg this]

lemma dfsPushH_frame (curr : BoardH) (row col : Nat) (hrow : row < size)
    (hcol : col < size) (N : Nat) :
    ∀ (ps : List Nat) (acc : List BoardH × Store), N ≤ acc.2.next →
      N ≤ (dfsPushH curr row col ps acc).2.next ∧
      ∀ x, x < N → (dfsPushH curr row col ps acc).2.mem x = acc.2.mem x := by
  intro ps
  induction ps with
  | nil => intro acc hN; exact ⟨hN, fun _ _ => rfl⟩
  | cons q ps ih =>
      intro acc hN
      have hstep : dfsPushH curr row col (q :: ps) acc
          = dfsPushH curr row col ps
            (((deepcopyH curr acc.2).1.update (deepcopyH curr acc.2).2
                row col q).1 :: acc.1,
             ((deepcopyH curr acc.2).1.update (deepcopyH curr acc.2).2
                row col q).2) := rfl
      rw [hstep]
      obtain ⟨hcab, hcnext, hcmem⟩ := deepcopyH_frame curr acc.2 N hN
      have hcab2 : AddrsAbove (deepcopyH curr acc.2).1 N :=
        fun i j a hi hj h => Nat.le_trans hN (hcab i j a hi hj h)
      obtain ⟨huab, hunext, humem⟩ := updateH_frame (deepcopyH curr acc.2).1
        (deepcopyH curr acc.2).2 row col q N hrow hcol hcab2
      have hN2 : N ≤ (((deepcopyH curr acc.2).1.update (deepcopyH curr acc.2).2
          row col q).2).next := by
        rw [hunext, hcnext]
        omega
      obtain ⟨h1, h2⟩ := ih
        (((deepcopyH curr acc.2).1.update (deepcopyH curr acc.2).2
            row col q).1 :: acc.1,
         ((deepcopyH curr acc.2).1.update (deepcopyH curr acc.2).2
            row col q).2) hN2
      refine ⟨h1, fun x hx => ?_⟩
      rw [h2 x hx]
      show (((deepcopyH curr acc.2).1.update (deepcopyH curr acc.2).2
          row col q).2).mem x = acc.2.mem x
      rw [humem x hx, hcmem x hx]

/-! ### Unfolding equations of the heap DFS loop -/

lemma DFSRunH_goal (n : Nat) (curr : BoardH) (rest : List BoardH) (σ : Store)
    (hg : curr.goal_test = true) :
    DFSRunH (n + 1) (curr :: rest) σ = some (.ret (some curr), σ) := by
  simp [DFSRunH, hg]

lemma DFSRunH_failure (n : Nat) (curr : BoardH) (rest : List BoardH) (σ : Store)
    (hg : curr.goal_test = false) (hf : curr.failure_test σ = true) :
    DFSRunH (n + 1) (curr :: rest) σ = DFSRunH n rest σ := by
  simp [DFSRunH, hg, hf]

lemma DFSRunH_expand (n : Nat) (curr : BoardH) (rest : List BoardH) (σ : Store)
    (a : Nat) (hg : curr.goal_test = false) (hf : curr.failure_test σ = false)
    (hl : curr.rows (curr.find_most_constrained_cell σ).1
      (curr.find_most_constrained_cell σ).2 = HCell.ref a) :
    DFSRunH (n + 1) (curr :: rest) σ
      = DFSRunH n (dfsPushH curr (curr.find_most_constrained_cell σ).1
          (curr.find_most_constrained_cell σ).2 (σ.mem a) (rest, σ)).1
          (dfsPushH curr (curr.find_most_constrained_cell σ).1
            (curr.find_most_constrained_cell σ).2 (σ.mem a) (rest, σ)).2 := by
  simp only [DFSRunH, hg, hf]
  rw [hl]
  simp

lemma DFSRunH_expand_err (n : Nat) (curr : BoardH) (rest : List BoardH)
    (σ : Store) (m : Nat) (hg : curr.goal_test = false)
    (hf : curr.failure_test σ = false)
    (hl : curr.rows (curr.find_most_constrained_cell σ).1
      (curr.find_most_constrained_cell σ).2 = HCell.fixed m) :
    DFSRunH (n + 1) (curr :: rest) σ = some (.err, σ) := by
  simp only [DFSRunH, hg, hf]
  rw [hl]
  simp

/-- The whole heap DFS run never writes below any bound that was free at the
start: every allocation is fresh and every list mutation happens on a board
copied after the run began. -/
lemma DFSRunH_frame :
    ∀ (n : Nat) (s : List BoardH) (σ : Store) (N : Nat), N ≤ σ.next →
      ∀ out σ2, DFSRunH n s σ = some (out, σ2) →
      N ≤ σ2.next ∧ ∀ x, x < N → σ2.mem x = σ.mem x := by
  intro n
  induction n with
  | zero => intro s σ N hN out σ2 h; cases h
  | succ n ih =>
      intro s σ N hN out σ2 h
      cases s with
      | nil =>
          have h2 : (some (DfsResult.ret none, σ) :
              Option (DfsResult BoardH × Store)) = some (out, σ2) := h
          injection h2 with h3
          injection h3 with h4 h5
          subst h5
          exact ⟨hN, fun _ _ => rfl⟩
      | cons curr rest =>
          cases hg : curr.goal_test with
          | true =>
              rw [DFSRunH_goal n curr rest σ hg] at h
              injection h with h3
              injection h3 with h4 h5
              subst h5
              exact ⟨hN, fun _ _ => rfl⟩
          | false =>
              cases hf : curr.failure_test σ with
              | true =>
                  rw [DFSRunH_failure n curr rest σ hg hf] at h
                  exact ih rest σ N hN out σ2 h
              | false =>
                  cases hl : curr.rows (curr.find_most_constrained_cell σ).1
                      (curr.find_most_constrained_cell σ).2 with
                  | fixed m =>
                      rw [DFSRunH_expand_err n curr rest σ m hg hf hl] at h
                      injection h with h3
                      injection h3 with h4 h5
                      subst h5
                      exact ⟨hN, fun _ _ => rfl⟩
                  | ref a =>
                      rw [DFSRunH_expand n curr rest σ a hg hf hl] at h
                      have hb := fmccH_bounds curr σ
                      obtain ⟨hpn, hpm⟩ := dfsPushH_frame curr
                        (curr.find_most_constrained_cell σ).1
                        (curr.find_most_constrained_cell σ).2 hb.1 hb.2 N
                        (σ.mem a) (rest, σ) hN
                      obtain ⟨h1, h2⟩ := ih _ _ N hpn out σ2 h
                      exact ⟨h1, fun x hx => (h2 x hx).trans (hpm x hx)⟩

/-! ## Claim theorems -/

/-- C1: for every board (candidate lists being duplicate-free, as the data
model requires of candidate sets) and every in-range assignment, after
`update(r, c, v)` no cell in row `r`, column `c`, or the subgrid of `(r, c)`
that still holds a candidate list contains `v` in that list. -/
theorem C1_update_eliminates_peers (b : Board) (r c v i j : Nat)
    (hnd : ∀ i j, i < size → j < size → ∀ l, b.rows i j = Cell.cands l → l.Nodup)
    (hr : r < size) (hc : c < size) (hv1 : 1 ≤ v) (hv2 : v ≤ size)
    (hi : i < size) (hj : j < size)
    (hpeer : i = r ∨ j = c ∨ (i, j) ∈ subgrid_coordinates r c)
    (l : List Nat) (hcell : (b.update r c v).rows i j = Cell.cands l) :
    v ∉ l := by
  have hmem : (i, j) ∈ updateTargets r c := by
    rcases hpeer with rfl | rfl | hsub
    · exact mem_updateTargets_row i c j hj
    · exact mem_updateTargets_col r j i hi
    · exact mem_updateTargets_subgrid r c (i, j) hsub
  exact update_eliminates b r c v i j hmem (hnd i j hi hj) l hcell

theorem C1_update_eliminates_peers_witness :
    (Board.init.update 0 0 5).rows 0 3 = Cell.cands [1, 2, 3, 4, 6, 7, 8, 9] ∧
    (5 : Nat) ∉ [1, 2, 3, 4, 6, 7, 8, 9] :=
  ⟨by decide,
    C1_update_eliminates_peers Board.init 0 0 5 0 3
      (fun i j _ _ l hl => by
        have : Cell.cands (List.range' 1 9) = Cell.cands l := hl
        cases this
        decide)
      (by decide) (by decide) (by decide) (by decide) (by decide) (by decide)
      (Or.inl rfl) _ (by decide)⟩

/-- C2: on every board satisfying the data-model invariants (well-formed cells
and the elimination invariant) that still contains a candidate-list cell,
`find_most_constrained_cell` returns a candidate-list cell of minimum list
length, and among cells of that length the first one in row-major order. -/
theorem C2_most_constrained_first_min (b : Board)
    (hwf : BoardWF b) (helim : ElimInv b)
    (hex : ∃ i j l, i < size ∧ j < size ∧ b.rows i j = Cell.cands l) :
    ∃ l, b.rows b.find_most_constrained_cell.1 b.find_most_constrained_cell.2
          = Cell.cands l ∧
      ∀ i j l2, i < size → j < size → b.rows i j = Cell.cands l2 →
        l.length ≤ l2.length ∧
        (l2.length = l.length → rmLE b.find_most_constrained_cell (i, j)) := by
  rw [fmcc_eq_mccState]
  by_cases hlt : (mccState b).1 < size
  · obtain ⟨h1, h2, l, hl, hlen⟩ := mccState_cell b hlt
    refine ⟨l, hl, ?_⟩
    intro i j l2 hi hj hcell
    constructor
    · rw [hlen]
      exact mccState_min b i j l2 hi hj hcell
    · intro heq
      exact mccState_first b i j l2 hi hj hcell (by rw [heq, hlen])
  · have hst := mccState_of_not_lt b hlt
    -- every candidate list has full length 9
    have hall9 : ∀ i j l, i < size → j < size → b.rows i j = Cell.cands l →
        l.length = size := by
      intro i j l hi hj hcell
      have hge := mccState_min b i j l hi hj hcell
      rw [hst] at hge
      have hcwf := hwf i j hi hj
      rw [hcell] at hcwf
      have := cands_length_le_size l hcwf.1 hcwf.2
      omega
    -- hence no cell is assigned, otherwise no candidate cell could exist
    have hnofix : ∀ i j n, i < size → j < size → b.rows i j ≠ Cell.fixed n := by
      intro i j n hi hj hfix
      obtain ⟨i2, j2, l2, hi2, hj2, hc2⟩ := hex
      exact no_cands_of_all_nine b hwf helim i j n hi hj hfix hall9
        i2 j2 l2 hi2 hj2 hc2
    have h00 : ∃ l, b.rows 0 0 = Cell.cands l := by
      cases hc : b.rows 0 0 with
      | fixed n => exact absurd hc (hnofix 0 0 n (by decide) (by decide))
      | cands l => exact ⟨l, rfl⟩
    obtain ⟨l, hl⟩ := h00
    rw [hst]
    refine ⟨l, hl, ?_⟩
    intro i j l2 hi hj hcell
    constructor
    · rw [hall9 0 0 l (by decide) (by decide) hl,
        hall9 i j l2 hi hj hcell]
    · intro _
      rcases Nat.eq_zero_or_pos i with hz | hp
      · exact Or.inr ⟨hz.symm, Nat.zero_le _⟩
      · exact Or.inl hp

theorem C2_most_constrained_first_min_witness :
    ∃ l, Board.init.rows Board.init.find_most_constrained_cell.1
          Board.init.find_most_constrained_cell.2 = Cell.cands l ∧
      ∀ i j l2, i < size → j < size → Board.init.rows i j = Cell.cands l2 →
        l.length ≤ l2.length ∧
        (l2.length = l.length → rmLE Board.init.find_most_constrained_cell (i, j)) :=
  C2_most_constrained_first_min Board.init
    (fun i j _ _ => by
      show CellWF (Cell.cands (List.range' 1 9))
      exact ⟨by decide, by decide⟩)
    (fun r c i j n l _ _ _ _ h => by cases h)
    ⟨0, 0, List.range' 1 9, by decide, by decide, rfl⟩

/-- C3 (counterexample): calling `update` twice on the same cell increments
`num_nums_placed` twice but leaves a single assigned cell, so the claim as
stated over arbitrary `update` sequences fails. -/
theorem C3_count_counterexample :
    ((Board.init.update 0 0 1).update 0 0 1).num_nums_placed
      ≠ numFixed ((Board.init.update 0 0 1).update 0 0 1) := by
  decide

/-- C3 (amended): on every board reachable from a fresh `Board()` by in-range
`update` calls that each target a cell still holding a candidate list,
`num_nums_placed` equals the number of assigned cells, and every such
`update` call preserves the equality. -/
theorem C3_count_invariant (b : Board) (h : Reachable b) :
    b.num_nums_placed = numFixed b := by
  induction h with
  | init =>
      have : numFixed Board.init = 0 := by decide
      rw [this]
      rfl
  | update b r c v hb hr hc l hcell ih =>
      rw [update_num, numFixed_update_of_cands b r c v l hr hc hcell, ih]

theorem C3_count_invariant_witness :
    (Board.init.update 0 0 1).num_nums_placed = numFixed (Board.init.update 0 0 1) :=
  C3_count_invariant _
    (Reachable.update Board.init 0 0 1 Reachable.init (by decide) (by decide) _ rfl)

/-- C6: given that every assigned value lies in `1..9`, `failure_test` returns
true exactly when some cell holds an empty candidate list. -/
theorem C6_failure_iff_empty_cands (b : Board)
    (hv : ∀ i j n, i < size → j < size → b.rows i j = Cell.fixed n →
      1 ≤ n ∧ n ≤ size) :
    (b.failure_test = true ↔
      ∃ i j, i < size ∧ j < size ∧ b.rows i j = Cell.cands []) := by
  unfold Board.failure_test
  rw [List.any_eq_true]
  constructor
  · rintro ⟨p, hp, hfal⟩
    obtain ⟨i, j⟩ := p
    have hb := (mem_allCoords i j).1 hp
    refine ⟨i, j, hb.1, hb.2, ?_⟩
    cases hcell : b.rows i j with
    | fixed n =>
        have hrange := hv i j n hb.1 hb.2 hcell
        rw [hcell] at hfal
        simp [cellFalsy] at hfal
        omega
    | cands l =>
        rw [hcell] at hfal
        simp [cellFalsy, List.isEmpty_iff] at hfal
        rw [hfal]
  · rintro ⟨i, j, hi, hj, hcell⟩
    exact ⟨(i, j), (mem_allCoords i j).2 ⟨hi, hj⟩, by rw [hcell]; rfl⟩

theorem C6_failure_iff_empty_cands_witness :
    ((Board.mk (fun _ _ => Cell.cands []) 0).failure_test = true ↔
      ∃ i j, i < size ∧ j < size ∧
        (Board.mk (fun _ _ => Cell.cands []) 0).rows i j = Cell.cands []) :=
  C6_failure_iff_empty_cands _ (fun i j n _ _ h => nomatch h)

/-- C5: in the DFS loop, a popped board that is neither a goal nor a failure
(its candidate lists being strictly ascending, as in every board the program
builds) is processed by pushing exactly one child per value of the
most-constrained candidate list, each child being the (deep-copied) board
with that value assigned, and the values are taken in ascending numeric
order: the pushed children are precisely the map over that list. -/
theorem C5_expand_children (curr : Board) (rest : List Board) (n : Nat) (l : List Nat)
    (hsorted : BoardSorted curr)
    (hg : curr.goal_test = false) (hf : curr.failure_test = false)
    (hl : curr.rows curr.find_most_constrained_cell.1
      curr.find_most_constrained_cell.2 = Cell.cands l) :
    DFSRun (n + 1) (curr :: rest)
      = DFSRun n ((l.map (fun pos => curr.update curr.find_most_constrained_cell.1
          curr.find_most_constrained_cell.2 pos)).reverse ++ rest) ∧
    l.Pairwise (fun x y => x < y) := by
  constructor
  · rw [DFSRun_expand n curr rest l hg hf hl, foldl_push_eq]
  · exact hsorted _ _ l (fmcc_bounds curr).1 (fmcc_bounds curr).2 hl

theorem C5_expand_children_witness :
    Board.init.goal_test = false ∧ Board.init.failure_test = false ∧
    (DFSRun 1 [Board.init]
      = DFSRun 0 (((List.range' 1 9).map (fun pos =>
          Board.init.update Board.init.find_most_constrained_cell.1
            Board.init.find_most_constrained_cell.2 pos)).reverse ++ []) ∧
      (List.range' 1 9).Pairwise (fun x y => x < y)) :=
  ⟨by decide, by decide,
    C5_expand_children Board.init [] 0 (List.range' 1 9) boardSorted_init
      (by decide) (by decide) (by decide)⟩

/-- C7: DFS delivers the failure signal as an ordinary return value (`ret
none`, never the `err` interrupt), and it does so exactly when iterating the
loop pops only boards failing the goal test until the frontier is empty. -/
theorem C7_failure_signal_iff_exhaustion (state : Board) :
    (∃ n, DFS n state = some (DfsResult.ret none)) ↔
      Relation.ReflTransGen NextStack [state] [] :=
  DFSRun_ret_none_iff [state]

/-- C8: running DFS on a board whose 81 cells are all assigned and whose
filled counter is 81 returns that same board on the first pop: the goal
branch fires immediately, before any deep copy or push could happen. -/
theorem C8_complete_board_immediate (b : Board) (n : Nat)
    (hall : ∀ i j, i < size → j < size → isFixedCell (b.rows i j) = true)
    (hnum : b.num_nums_placed = size * size) :
    DFS (n + 1) b = some (DfsResult.ret (some b)) := by
  have hg : b.goal_test = true := by simp [Board.goal_test, hnum]
  exact DFSRun_goal n b [] hg

theorem C8_complete_board_immediate_witness :
    (Board.mk (fun _ _ => Cell.fixed 1) 81).num_nums_placed = size * size ∧
    DFS 1 (Board.mk (fun _ _ => Cell.fixed 1) 81)
      = some (DfsResult.ret (some (Board.mk (fun _ _ => Cell.fixed 1) 81))) :=
  ⟨by decide,
    C8_complete_board_immediate (Board.mk (fun _ _ => Cell.fixed 1) 81) 0
      (fun i j _ _ => rfl) (by decide)⟩

/-- C4: seeding a fresh board with the same value in two cells of one row and
running DFS exhausts the frontier and returns the failure signal: some fuel
makes the loop terminate with the `return None` outcome (never a goal). -/
theorem C4_same_row_same_value_unsolvable (r c1 c2 v : Nat)
    (hr : r < size) (hc1 : c1 < size) (hc2 : c2 < size) (hcne : c1 ≠ c2)
    (hv1 : 1 ≤ v) (hv2 : v ≤ size) :
    ∃ n, DFS n ((Board.init.update r c1 v).update r c2 v)
      = some (DfsResult.ret none) := by
  show ∃ n, DFSRun n [(Board.init.update r c1 v).update r c2 v]
    = some (DfsResult.ret none)
  apply dfs_doomed r c1 c2 v hr hc1 hc2 hcne
    (stackMeasure [(Board.init.update r c1 v).update r c2 v]) _ (Nat.le_refl _)
  intro b hb
  rw [List.mem_singleton] at hb
  rw [hb]
  exact seedInv_seed r c1 c2 v hr hc1 hc2 hcne hv1 hv2

theorem C4_same_row_same_value_unsolvable_witness :
    (0 : Nat) < size ∧ (1 : Nat) < size ∧ (0 : Nat) ≠ 1 ∧
    ∃ n, DFS n ((Board.init.update 0 0 1).update 0 1 1)
      = some (DfsResult.ret none) :=
  ⟨by decide, by decide, by decide,
    C4_same_row_same_value_unsolvable 0 0 1 1 (by decide) (by decide) (by decide)
      (by decide) (by decide) (by decide)⟩

lemma readBoardH_congr (b : BoardH) (σ1 σ2 : Store)
    (h : ∀ i j a, i < size → j < size → b.rows i j = HCell.ref a →
      σ1.mem a = σ2.mem a) :
    readBoardH b σ1 = readBoardH b σ2 := by
  unfold readBoardH
  rw [Prod.mk.injEq]
  refine ⟨?_, rfl⟩
  apply List.map_congr_left
  intro i hi
  apply List.map_congr_left
  intro j hj
  rw [List.mem_range] at hi hj
  unfold readCellH
  cases hc : b.rows i j with
  | fixed n => rfl
  | ref a =>
      show Cell.cands (σ1.mem a) = Cell.cands (σ2.mem a)
      rw [h i j a hi hj hc]

lemma applyUpdatesH_frame (N : Nat) :
    ∀ (ops : List (Nat × Nat × Nat)) (bσ : BoardH × Store),
      (∀ op ∈ ops, op.1 < size ∧ op.2.1 < size) →
      AddrsAbove bσ.1 N →
      ∀ x, x < N → (applyUpdatesH ops bσ).2.mem x = bσ.2.mem x := by
  intro ops
  induction ops with
  | nil => intro bσ _ _ x _; rfl
  | cons op ops ih =>
      intro bσ hops hab x hx
      have hop := hops op (List.mem_cons_self ..)
      obtain ⟨hab2, _, hmem⟩ := updateH_frame bσ.1 bσ.2 op.1 op.2.1 op.2.2 N
        hop.1 hop.2 hab
      have hstep : applyUpdatesH (op :: ops) bσ
          = applyUpdatesH ops (bσ.1.update bσ.2 op.1 op.2.1 op.2.2) := rfl
      have hrec := ih (bσ.1.update bσ.2 op.1 op.2.1 op.2.2)
        (fun o ho => hops o (List.mem_cons_of_mem _ ho)) hab2 x hx
      rw [hstep, hrec]
      exact hmem x hx

/-- C9: deep-copying a board and then applying any sequence of in-range
`update` calls to the copy (mutating the shared store in place) leaves every
cell of the original board, read through the store, and the original's
`num_nums_placed` attribute unchanged: the copy references only the freshly
allocated lists, so no write reaches an address of the original. -/
theorem C9_deepcopy_isolation (b : BoardH) (σ : Store)
    (ops : List (Nat × Nat × Nat)) (hwf : WFBoardH b σ)
    (hops : ∀ op ∈ ops, op.1 < size ∧ op.2.1 < size) :
    readBoardH b (applyUpdatesH ops (deepcopyH b σ)).2 = readBoardH b σ := by
  obtain ⟨hcab, _, hcmem⟩ := deepcopyH_frame b σ σ.next (Nat.le_refl _)
  have hmem : ∀ x, x < σ.next →
      (applyUpdatesH ops (deepcopyH b σ)).2.mem x = σ.mem x := by
    intro x hx
    rw [applyUpdatesH_frame σ.next ops (deepcopyH b σ) hops hcab x hx]
    exact hcmem x hx
  apply readBoardH_congr
  intro i j a hi hj hcell
  exact hmem a (hwf i j a hi hj hcell)

theorem C9_deepcopy_isolation_witness :
    readBoardH (BoardH.mk (fun i j => HCell.ref (size * i + j)) 0)
      (applyUpdatesH [(0, 0, 5)]
        (deepcopyH (BoardH.mk (fun i j => HCell.ref (size * i + j)) 0)
          (Store.mk (fun _ => [1, 2]) 81))).2
      = readBoardH (BoardH.mk (fun i j => HCell.ref (size * i + j)) 0)
          (Store.mk (fun _ => [1, 2]) 81) :=
  C9_deepcopy_isolation _ _ _
    (fun i j a hi hj h => by
      injection h with h2
      show a < 81
      have h9 : size = 9 := rfl
      rw [h9] at h2 hi hj
      omega)
    (by decide)

/-- C10: the heap DFS never mutates the caller-supplied board: every branch
deep-copies the popped board and assigns into the copy, and all allocations
are fresh, so after any terminating run the input board's cells (read
through the final store) and its counter attribute are exactly as at the
call; in particular a goal input is returned unchanged on the first pop. -/
theorem C10_dfs_never_mutates_input (b : BoardH) (σ : Store) (fuel : Nat)
    (out : DfsResult BoardH) (σ2 : Store) (hwf : WFBoardH b σ)
    (hrun : DFSRunH fuel [b] σ = some (out, σ2)) :
    readBoardH b σ2 = readBoardH b σ := by
  obtain ⟨_, h2⟩ := DFSRunH_frame fuel [b] σ σ.next (Nat.le_refl _) out σ2 hrun
  apply readBoardH_congr
  intro i j a hi hj hcell
  exact h2 a (hwf i j a hi hj hcell)

theorem C10_dfs_never_mutates_input_witness :
    DFSRunH 1 [BoardH.mk (fun _ _ => HCell.fixed 1) 81] (Store.mk (fun _ => []) 0)
      = some (DfsResult.ret (some (BoardH.mk (fun _ _ => HCell.fixed 1) 81)),
          Store.mk (fun _ => []) 0) ∧
    readBoardH (BoardH.mk (fun _ _ => HCell.fixed 1) 81)
        (Store.mk (fun _ => []) 0)
      = readBoardH (BoardH.mk (fun _ _ => HCell.fixed 1) 81)
          (Store.mk (fun _ => []) 0) :=
  ⟨rfl,
    C10_dfs_never_mutates_input _ _ 1 _ _ (fun i j a _ _ h => nomatch h) rfl⟩

end A5
